import Mathlib

/-!
Verification of the approxism approximate-string-matching library.

The development shallowly embeds the core of the library:

* `Tokeniser.tokenise` / `Tokeniser.sentences` (tokeniser.py),
* the bigram encoding `Matcher.token_bigrams` / `Matcher.sequence_bigrams`
  and the strip predicate `Matcher.is_strip_token` (matcher.py),
* the overlap-resolution loop of `Matcher.Text.match` (matcher.py),
* the `Lowercase` token transform (transforms/lowercase.py),
* the extraction orchestration `Extractor.extract` and the JSON
  (de)serialisation of the extractor configuration (extractor.py).

Strings are modelled as `List Char`, Python floats as `ℚ`, and the external
collaborators (the NLTK punkt sentence splitter and the pysdcxx
`SequenceMatcher` similarity engine) are parameters: the punkt output is an
arbitrary list of sentence strings and the engine's candidate streams are an
arbitrary function, constrained only by the documented collaborator contracts.
-/

namespace Approxism

/-- Python slice `s[b:e]` of a character list. -/
def pySlice (s : List Char) (b e : Nat) : List Char := (s.take e).drop b

/-- `Tokeniser.Token`: the token text, its half-open character span and a tag.
Python's `begin`/`end` fields are called `begin_`/`end_` (`end` is reserved in
Lean). -/
structure Token where
  string : List Char
  begin_ : Nat
  end_ : Nat
  tag : String
deriving DecidableEq, Repr

namespace Tokeniser

/-- Tag of word tokens (`Tokeniser.word`). -/
def word : String := "word"

/-- Tag of whitespace tokens (`Tokeniser.ws`). -/
def ws : String := "WS"

/-- Tag of punctuation tokens (`Tokeniser.punct`). -/
def punct : String := "punct"

end Tokeniser

/-- `pysdcxx.SequenceMatcher.Match`, a candidate window: token indices
(half-open) plus a similarity score (Python float, modelled by `ℚ`). -/
structure SMMatch where
  begin_ : Nat
  end_ : Nat
  score : ℚ
deriving DecidableEq, Repr

/-- `Matcher.Match`: character offsets plus score. -/
structure MMatch where
  begin_ : Nat
  end_ : Nat
  score : ℚ
deriving DecidableEq, Repr

namespace Matcher

/-- The overlap-resolution loop of `Matcher.Text.match` for one sentence,
keeping the candidates in token-index form (`Matcher.Text.match` maps
`make_match` over the kept candidates as it yields them; the composition is
`matchSentence` below).  The four cases mirror the Python loop: no best match
yet, past match (flush), worse overlap (discard), better overlap (replace);
the final best match is flushed after the loop. -/
def resolveAux : Option SMMatch → List SMMatch → List SMMatch
  | none, [] => []
  | some best, [] => [best]
  | none, c :: rest => resolveAux (some c) rest
  | some best, c :: rest =>
    if ¬ c.begin_ < best.end_ then best :: resolveAux (some c) rest
    else if c.score ≤ best.score then resolveAux (some best) rest
    else resolveAux (some c) rest

/-- The resolver run from the initial `best_match = None` state. -/
def resolve (stream : List SMMatch) : List SMMatch := resolveAux none stream

/-- `make_match` inside `Matcher.Text.match`: convert a candidate window from
token indices to character offsets using the sentence's token list. -/
def make_match (tokens : List Token) (m : SMMatch) : MMatch :=
  { begin_ := (tokens.getD m.begin_ ⟨[], 0, 0, ""⟩).begin_
  , end_ := (tokens.getD (m.end_ - 1) ⟨[], 0, 0, ""⟩).end_
  , score := m.score }

/-- `Matcher.Text.match` restricted to a single sentence: resolve the
candidate stream of the external engine, then map the kept windows to
character offsets. -/
def matchSentence (tokens : List Token) (stream : List SMMatch) : List MMatch :=
  (resolve stream).map (make_match tokens)

end Matcher

namespace Tokeniser

/-- Maximal runs of characters with equal split-classification.  This models
the scan of `Tokeniser.tokenise`: the regex `[^split]+` finds the maximal runs
of non-split characters (the word tokens) and the characters between two such
runs (or before the first / after the last) form one maximal run of split
characters (a single split token). -/
def tokRuns (isSplit : Char → Bool) : List Char → List (List Char)
  | [] => []
  | c :: s =>
    match tokRuns isSplit s with
    | [] => [[c]]
    | [] :: _ => [[c]]
    | (d :: r) :: rs =>
      if isSplit c = isSplit d then (c :: d :: r) :: rs else [c] :: (d :: r) :: rs

/-- `split_tag` inside `Tokeniser.tokenise`: a split token is tagged `punct`
if any of its characters is a punctuation character, else `WS`.  `P` is the
punctuation-character set (`Tokeniser._punctuation`). -/
def split_tag (P : Char → Bool) (token : List Char) : String :=
  if token.any P then Tokeniser.punct else Tokeniser.ws

/-- Convert the runs into `Token`s with cumulative character spans.  A run of
split characters gets `split_tag`, a run of non-split characters is a word. -/
def runsToTokens (P isSplit : Char → Bool) : Nat → List (List Char) → List Token
  | _, [] => []
  | offset, run :: rest =>
    (match run with
      | [] => ⟨run, offset, offset + run.length, Tokeniser.ws⟩
      | d :: _ =>
        if isSplit d then ⟨run, offset, offset + run.length, split_tag P run⟩
        else ⟨run, offset, offset + run.length, Tokeniser.word⟩)
    :: runsToTokens P isSplit (offset + run.length) rest

/-- `Tokeniser.tokenise`: split `string` into word tokens (maximal runs of
non-split characters) and split tokens (the gaps), with exact spans.  `P` is
the punctuation set and `W` the whitespace set; the split set is their
union (`Tokeniser._split_chars`). -/
def tokenise (P W : Char → Bool) (string : List Char) : List Token :=
  runsToTokens P (fun c => P c || W c) 0 (tokRuns (fun c => P c || W c) string)

/-- `pat` occurs in `text` at position `i` (substring test). -/
def occursAt (text pat : List Char) (i : Nat) : Bool :=
  List.isPrefixOf pat (text.drop i)

/-- Python `text.index(pat, b)`: the least position `i ≥ b` where `pat`
occurs in `text`, `none` when there is no occurrence (Python raises
`ValueError`). -/
def indexFrom (text pat : List Char) (b : Nat) : Option Nat :=
  (List.range (text.length + 1)).find? (fun i => decide (b ≤ i) && occursAt text pat i)

/-- `Tokeniser.sentences` re-anchoring loop, started at `begin = b`.  The
punkt collaborator's output is the `punkt` list; each of its sentences is
located in `text` at or after the previous boundary and the slice from the
previous boundary to the end of the located occurrence is yielded.  `none`
models the `ValueError` raised when a sentence cannot be located. -/
def sentencesFrom (text : List Char) : Nat → List (List Char) → Option (List (List Char))
  | _, [] => some []
  | b, sentence :: rest =>
    match indexFrom text sentence b with
    | none => none
    | some i =>
      match sentencesFrom text (i + sentence.length) rest with
      | none => none
      | some ys => some (pySlice text b (i + sentence.length) :: ys)

/-- The final value of `begin` after the `Tokeniser.sentences` loop (the end
of the last located sentence; `b` when `punkt` is empty). -/
def sentencesEndFrom (text : List Char) : Nat → List (List Char) → Option Nat
  | b, [] => some b
  | b, sentence :: rest =>
    match indexFrom text sentence b with
    | none => none
    | some i => sentencesEndFrom text (i + sentence.length) rest

/-- `Tokeniser.sentences text` given the sentence-splitting collaborator's
output `punkt`. -/
def sentences (text : List Char) (punkt : List (List Char)) : Option (List (List Char)) :=
  sentencesFrom text 0 punkt

end Tokeniser

/-- `pysdcxx.Bigrams`: a multiset of character pairs. -/
abbrev Bigrams := Multiset (Char × Char)

/-- The bigram multiset of a string: its consecutive-character-pair
histogram (strings of length below 2 give the empty multiset). -/
def strBigrams : List Char → Bigrams
  | a :: b :: rest => (a, b) ::ₘ strBigrams (b :: rest)
  | _ => 0

namespace Matcher

/-- `Matcher.token_bigrams`: whitespace tokens yield the empty multiset when
whitespace omission is enabled; a string of length 1 is padded with one
space character before histogramming. -/
def token_bigrams (omit_whitespaces : Bool) (token : Token) : Bigrams :=
  if token.tag = Tokeniser.ws ∧ omit_whitespaces = true then 0
  else
    let token_string := if token.string.length = 1 then token.string ++ [' '] else token.string
    strBigrams token_string

/-- `Matcher.is_strip_token`: true iff the token is not a word or is a stop
word of the active stop-word set. -/
def is_strip_token (stopwords : List (List Char)) (token : Token) : Bool :=
  decide (token.tag ≠ Tokeniser.word) || decide (token.string ∈ stopwords)

/-- `Matcher.tokenise`: tokenise, then pipe the tokens through the configured
transform chain (each transform maps a token list to a token list). -/
def tokenise (P W : Char → Bool) (transforms : List (List Token → List Token))
    (string : List Char) : List Token :=
  transforms.foldl (fun tokens tr => tr tokens) (Tokeniser.tokenise P W string)

/-- The leading `while ... pop(0)` loop of `Matcher.sequence_bigrams`: drop
tokens from the front while they are strippable. -/
def stripFront (p : Token → Bool) : List Token → List Token
  | [] => []
  | t :: ts => if p t then stripFront p ts else t :: ts

/-- The trailing `while ... pop(-1)` loop of `Matcher.sequence_bigrams`: drop
tokens from the back while they are strippable (recursively: a token is kept
iff some token at or after it is not strippable). -/
def stripBack (p : Token → Bool) : List Token → List Token
  | [] => []
  | t :: ts =>
    match stripBack p ts with
    | [] => if p t then [] else [t]
    | u :: us => t :: u :: us

/-- `Matcher.sequence_bigrams`: tokenise the string, trim strippable tokens
from both ends, then sum the bigrams of the remaining tokens. -/
def sequence_bigrams (P W : Char → Bool) (transforms : List (List Token → List Token))
    (stopwords : List (List Char)) (omit_whitespaces : Bool) (string : List Char) : Bigrams :=
  let tokens := stripBack (is_strip_token stopwords)
    (stripFront (is_strip_token stopwords) (tokenise P W transforms string))
  (tokens.map (token_bigrams omit_whitespaces)).sum

end Matcher

/-- Python `str.lower` (ASCII model). -/
def strLower (s : List Char) : List Char := s.map Char.toLower

/-- Python `str.upper` (ASCII model). -/
def strUpper (s : List Char) : List Char := s.map Char.toUpper

namespace Lowercase

/-- `Lowercase.transform` applied to one token (the body of the Python
`for token in tokens` loop with its pragmatic `while True` break structure:
non-words are kept; a word shorter than `min_len` is kept when `except_caps`
is unset, or when it is set and the word is all-caps; otherwise the word is
lowercased). -/
def transformToken (min_len : Nat) (except_caps : Bool) (token : Token) : Token :=
  if token.tag ≠ Tokeniser.word then token
  else if token.string.length < min_len then
    if except_caps = false then token
    else if strUpper token.string = token.string then token
    else { token with string := strLower token.string }
  else { token with string := strLower token.string }

/-- `Lowercase.transform`: the generator yields each (possibly rewritten)
token in order. -/
def transform (min_len : Nat) (except_caps : Bool) (tokens : List Token) : List Token :=
  tokens.map (transformToken min_len except_caps)

end Lowercase

/-- `Extractor.Match` without the opaque `record` field (the record is passed
through unchanged and plays no role in the offset/token bookkeeping). -/
structure EMatch where
  term : List Char
  begin_ : Nat
  end_ : Nat
  score : ℚ
  token : List Char
deriving DecidableEq, Repr

namespace Extractor

/-- The inner `for term, rec_bgrms in terms.items()` loop of
`Extractor.extract` for one sentence: the external engine's candidate stream
for sentence `sIdx` and term `tIdx` is `engine sIdx tIdx`; each resolved
match is shifted by the running sentence `offset` and its `token` field is
sliced from the sentence string. -/
def extractTerms (tokens : List Token) (sentence_str : List Char) (offset sIdx : Nat)
    (engine : Nat → Nat → List SMMatch) : Nat → List (List Char) → List EMatch
  | _, [] => []
  | tIdx, term :: rest =>
    (Matcher.matchSentence tokens (engine sIdx tIdx)).map (fun m =>
      { term := term
      , begin_ := m.begin_ + offset
      , end_ := m.end_ + offset
      , score := m.score
      , token := pySlice sentence_str m.begin_ m.end_ })
    ++ extractTerms tokens sentence_str offset sIdx engine (tIdx + 1) rest

/-- The outer `for sentence_str in matcher.sentences(text)` loop of
`Extractor.extract`: pre-process each sentence (tokenise with transforms; the
spans are sentence-relative since the single-sentence `Matcher.Text` adds a
zero offset), match every term in it, then advance the running offset by the
sentence length. -/
def extractGo (P W : Char → Bool) (transforms : List (List Token → List Token))
    (terms : List (List Char)) (engine : Nat → Nat → List SMMatch) :
    Nat → Nat → List (List Char) → List EMatch
  | _, _, [] => []
  | sIdx, offset, sentence_str :: rest =>
    extractTerms (Matcher.tokenise P W transforms sentence_str) sentence_str offset sIdx engine 0 terms
    ++ extractGo P W transforms terms engine (sIdx + 1) (offset + sentence_str.length) rest

/-- `Extractor.extract`: split the text into sentences (via the punkt
collaborator's output `punkt`), then run the per-sentence, per-term matching
loop.  `none` models the failure of the sentence re-anchoring. -/
def extract (P W : Char → Bool) (transforms : List (List Token → List Token))
    (terms : List (List Char)) (engine : Nat → Nat → List SMMatch)
    (punkt : List (List Char)) (text : List Char) : Option (List EMatch) :=
  match Tokeniser.sentences text punkt with
  | none => none
  | some sents => some (extractGo P W transforms terms engine 0 0 sents)

end Extractor

/-- Well-formed token spans: each token begins where told, ends no earlier
than it begins, and the next token begins at its end.  This is the span part
of the tokeniser invariant (`Matcher.Text` shifts all spans by the sentence
offset, hence the `offset` parameter). -/
def spansFrom : Nat → List Token → Prop
  | _, [] => True
  | offset, t :: ts => t.begin_ = offset ∧ t.begin_ ≤ t.end_ ∧ spansFrom t.end_ ts

instance spansFrom.instDec : (offset : Nat) → (ts : List Token) → Decidable (spansFrom offset ts)
  | _, [] => .isTrue trivial
  | offset, t :: ts =>
    have : Decidable (spansFrom t.end_ ts) := spansFrom.instDec t.end_ ts
    by unfold spansFrom; infer_instance

/-- Exact coverage: like `spansFrom`, but each token's span length is its
string length and token strings are non-empty. -/
def coversFrom : Nat → List Token → Prop
  | _, [] => True
  | offset, t :: ts =>
    t.begin_ = offset ∧ t.end_ = offset + t.string.length ∧ t.string ≠ [] ∧ coversFrom t.end_ ts

/-- The end offset of a token list (its last token's end; `offset` when
empty). -/
def endOff : Nat → List Token → Nat
  | offset, [] => offset
  | _, t :: ts => endOff t.end_ ts

namespace Ser

/-- JSON-primitive values (JSON `null` models Python `None`). -/
inductive JPrim where
  | null
  | bool (b : Bool)
  | num (q : ℚ)
  | str (s : String)
deriving DecidableEq, Repr

/-- JSON documents, as produced by `json.dump` / consumed by `json.load`.
Objects are ordered key/value lists (the encoder never emits duplicate
keys). -/
inductive JValue where
  | prim (p : JPrim)
  | arr (items : List JValue)
  | obj (fields : List (String × JValue))

/-- A serialisable dictionary record: a dataclass extending
`Extractor.Dictionary.Record`.  `className` is the embedded type tag
(`module::ClassName` of `_JSONEncoder.default`), `_matching_threshold` the
field inherited from the base record, and `fields` the subclass's further
dataclass fields in declaration order, `none` standing for Python `None`. -/
structure DRecord where
  className : String
  _matching_threshold : Option ℚ
  fields : List (String × Option JPrim)
deriving DecidableEq, Repr

/-- A serialisable token-transform object (e.g. `Lowercase`): not a
dataclass, so `_JSONEncoder.default` serialises its whole `__dict__`. -/
structure TrObj where
  className : String
  fields : List (String × JPrim)
deriving DecidableEq, Repr

/-- A value of `Extractor._matcher_kwargs`: a JSON-primitive `Matcher`
argument (language, boolean flags) or the `token_transform` list. -/
inductive KVal where
  | prim (p : JPrim)
  | transforms (ts : List TrObj)
deriving DecidableEq, Repr

/-- The serialisable state of an `Extractor`: default threshold, `Matcher`
construction arguments, and the dictionary's (term, record) items. -/
structure SerExtractor where
  default_threshold : ℚ
  matcher_kwargs : List (String × KVal)
  dictionary : List (String × DRecord)
deriving DecidableEq, Repr

/-- `_JSONEncoder.default` on a dataclass record: the `_class` tag first,
then the `__dict__` members whose value is not `None` (unset optional members
are not serialised). -/
def encodeRecord (r : DRecord) : JValue :=
  .obj (("_class", .prim (.str r.className)) ::
    ((match r._matching_threshold with
      | none => []
      | some q => [("_matching_threshold", JValue.prim (.num q))]) ++
     r.fields.filterMap (fun f => match f.2 with
      | none => none
      | some p => some (f.1, JValue.prim p))))

/-- `_JSONEncoder.default` on a non-dataclass object: the `_class` tag plus a
copy of the whole `__dict__`. -/
def encodeTrObj (t : TrObj) : JValue :=
  .obj (("_class", .prim (.str t.className)) :: t.fields.map (fun f => (f.1, JValue.prim f.2)))

/-- Encode one `Matcher` keyword argument value. -/
def encodeKVal : KVal → JValue
  | .prim p => .prim p
  | .transforms ts => .arr (ts.map encodeTrObj)

/-- `Extractor.serialise`: the JSON document written by `json.dump`. -/
def serialise (e : SerExtractor) : JValue :=
  .obj [ ("default_threshold", .prim (.num e.default_threshold))
       , ("matcher_arguments", .obj (e.matcher_kwargs.map (fun kv => (kv.1, encodeKVal kv.2))))
       , ("dictionary", .obj (e.dictionary.map (fun kv => (kv.1, encodeRecord kv.2)))) ]

/-- Python dict lookup (first occurrence; `obj.get(key)` / `config[key]`). -/
def lookupKey (key : String) : List (String × JValue) → Option JValue
  | [] => none
  | kv :: rest => if kv.1 = key then some kv.2 else lookupKey key rest

/-- The importable class universe seen by `import_module` + `get_class`:
a resolvable tag names either a record class (with its ordered dataclass
field names, `_matching_threshold` excluded) or a transform class (with its
ordered constructor parameters); an unresolvable tag fails. -/
structure Registry where
  recordFields : String → Option (List String)
  transformFields : String → Option (List String)

/-- Reconstructed Python values (the results of
`Extractor.deserialise.reconstruct`). -/
inductive PyVal where
  | prim (p : JPrim)
  | list (items : List PyVal)
  | dict (entries : List (String × PyVal))
  | record (r : DRecord)
  | transform (t : TrObj)

/-- The value a record constructor assigns to one optional dataclass field:
absent keywords default to `None`.  (Field values are JSON primitives in
this model, matching everything the encoder emits.) -/
def decodeFieldValue (kwargs : List (String × JValue)) (n : String) :
    Option (String × Option JPrim) :=
  match lookupKey n kwargs with
  | none => some (n, none)
  | some (.prim p) => some (n, some p)
  | some _ => none

/-- Assign all declared optional fields of a record class in order. -/
def decodeFields (kwargs : List (String × JValue)) : List String →
    Option (List (String × Option JPrim))
  | [] => some []
  | n :: ns =>
    match decodeFieldValue kwargs n, decodeFields kwargs ns with
    | some f, some fs => some (f :: fs)
    | _, _ => none

/-- The base record's optional `_matching_threshold` argument. -/
def decodeThreshold : Option JValue → Option (Option ℚ)
  | none => some none
  | some (.prim (.num q)) => some (some q)
  | some _ => none

/-- `cls(**kwargs)` for a record class: every keyword must be a declared
field (else `TypeError`), `_matching_threshold` and the declared fields
default to `None` when absent. -/
def constructRecord (fieldNames : List String) (className : String)
    (kwargs : List (String × JValue)) : Option DRecord :=
  if ∀ kv ∈ kwargs, kv.1 = "_matching_threshold" ∨ kv.1 ∈ fieldNames then
    match decodeThreshold (lookupKey "_matching_threshold" kwargs),
          decodeFields kwargs fieldNames with
    | some threshold, some fields => some ⟨className, threshold, fields⟩
    | _, _ => none
  else none

/-- One mandatory constructor parameter of a transform class. -/
def decodeTrField (kwargs : List (String × JValue)) (n : String) :
    Option (String × JPrim) :=
  match lookupKey n kwargs with
  | some (.prim p) => some (n, p)
  | _ => none

/-- Assign all constructor parameters of a transform class in order. -/
def decodeTrFields (kwargs : List (String × JValue)) : List String →
    Option (List (String × JPrim))
  | [] => some []
  | n :: ns =>
    match decodeTrField kwargs n, decodeTrFields kwargs ns with
    | some f, some fs => some (f :: fs)
    | _, _ => none

/-- `cls(**kwargs)` for a transform class: every constructor parameter must
be supplied (the encoder always serialises the whole `__dict__`, so none is
ever missing on a round trip) and no unexpected keyword is accepted. -/
def constructTransform (fieldNames : List String) (className : String)
    (kwargs : List (String × JValue)) : Option TrObj :=
  if ∀ kv ∈ kwargs, kv.1 ∈ fieldNames then
    match decodeTrFields kwargs fieldNames with
    | none => none
    | some fields => some ⟨className, fields⟩
  else none

mutual

/-- `Extractor.deserialise.reconstruct`: a dict carrying a truthy `_class`
tag is rebuilt through the tag-to-constructor lookup with the tag removed
from the keyword arguments; other dicts and lists are reconstructed to
depth; everything else is kept as is.  (A falsy tag — the empty string — is
not treated as a tag; a non-string tag cannot come from the encoder and
fails.) -/
def reconstruct (reg : Registry) : JValue → Option PyVal
  | .prim p => some (.prim p)
  | .arr items => (reconstructList reg items).map .list
  | .obj entries =>
    match lookupKey "_class" entries with
    | some (.prim (.str className)) =>
      if className = "" then (reconstructEntries reg entries).map .dict
      else
        match reg.recordFields className with
        | some fns =>
          (constructRecord fns className (entries.filter (fun kv => kv.1 ≠ "_class"))).map .record
        | none =>
          match reg.transformFields className with
          | some fns =>
            (constructTransform fns className (entries.filter (fun kv => kv.1 ≠ "_class"))).map .transform
          | none => none
    | some _ => none
    | none => (reconstructEntries reg entries).map .dict

/-- `reconstruct` mapped over a JSON array. -/
def reconstructList (reg : Registry) : List JValue → Option (List PyVal)
  | [] => some []
  | v :: rest =>
    match reconstruct reg v, reconstructList reg rest with
    | some pv, some pvs => some (pv :: pvs)
    | _, _ => none

/-- `reconstruct` mapped over a JSON object's values. -/
def reconstructEntries (reg : Registry) : List (String × JValue) → Option (List (String × PyVal))
  | [] => some []
  | kv :: rest =>
    match reconstruct reg kv.2, reconstructEntries reg rest with
    | some pv, some pvs => some ((kv.1, pv) :: pvs)
    | _, _ => none

end

/-- The reconstructed items of the `token_transform` list (each must be a
transform object for the result to be a valid `Matcher` argument). -/
def decodeTransformList : List PyVal → Option (List TrObj)
  | [] => some []
  | PyVal.transform t :: rest =>
    match decodeTransformList rest with
    | none => none
    | some ts => some (t :: ts)
  | _ :: _ => none

/-- One reconstructed `Matcher` keyword argument: a primitive or the
transform list. -/
def decodeKwargEntry : String × PyVal → Option (String × KVal)
  | (k, PyVal.prim p) => some (k, KVal.prim p)
  | (k, PyVal.list items) =>
    match decodeTransformList items with
    | none => none
    | some ts => some (k, KVal.transforms ts)
  | _ => none

/-- The reconstructed `Matcher` keyword arguments. -/
def decodeKwargs : List (String × PyVal) → Option (List (String × KVal))
  | [] => some []
  | kv :: rest =>
    match decodeKwargEntry kv, decodeKwargs rest with
    | some k, some ks => some (k :: ks)
    | _, _ => none

/-- The reconstructed dictionary items (each value must be a record). -/
def decodeDict : List (String × PyVal) → Option (List (String × DRecord))
  | [] => some []
  | (k, PyVal.record r) :: rest =>
    match decodeDict rest with
    | none => none
    | some ds => some ((k, r) :: ds)
  | _ :: _ => none

/-- `Extractor.deserialise`: read the three top-level keys, reconstruct the
matcher arguments (a dict of primitives and transform lists) and the
dictionary (a dict of records), and rebuild the extractor state. -/
def deserialise (reg : Registry) (dump : JValue) : Option SerExtractor :=
  match dump with
  | .obj config =>
    match lookupKey "default_threshold" config with
    | some (.prim (.num dt)) =>
      match (lookupKey "matcher_arguments" config).bind (reconstruct reg) with
      | some (PyVal.dict argEntries) =>
        match decodeKwargs argEntries with
        | some kwargs =>
          match (lookupKey "dictionary" config).bind (reconstruct reg) with
          | some (PyVal.dict dictEntries) =>
            match decodeDict dictEntries with
            | some dictionary => some ⟨dt, kwargs, dictionary⟩
            | none => none
          | _ => none
        | none => none
      | _ => none
    | _ => none
  | _ => none

/-- A record is JSON-serialisable with a resolvable type tag: the registry
resolves its tag to exactly its declared field names (in order), the field
names are distinct and avoid the reserved `_class` / `_matching_threshold`
keys, and the tag is truthy (non-empty). -/
abbrev recOK (reg : Registry) (r : DRecord) : Prop :=
  reg.recordFields r.className = some (r.fields.map Prod.fst) ∧
  (r.fields.map Prod.fst).Nodup ∧
  "_matching_threshold" ∉ r.fields.map Prod.fst ∧
  "_class" ∉ r.fields.map Prod.fst ∧
  r.className ≠ ""

/-- A transform object is JSON-serialisable with a resolvable type tag (and
its tag does not clash with a record class). -/
abbrev trOK (reg : Registry) (t : TrObj) : Prop :=
  reg.recordFields t.className = none ∧
  reg.transformFields t.className = some (t.fields.map Prod.fst) ∧
  (t.fields.map Prod.fst).Nodup ∧
  "_class" ∉ t.fields.map Prod.fst ∧
  t.className ≠ ""

/-- A `Matcher` keyword argument value is JSON-serialisable: primitives
always are, transform lists when each transform is. -/
abbrev kvalOK (reg : Registry) : KVal → Prop
  | .prim _ => True
  | .transforms ts => ∀ t ∈ ts, trOK reg t

end Ser

/-! ## Properties of the overlap resolver -/

/-- A member of the resolver's output is the initial best match or a stream
member. -/
theorem mem_resolveAux {x : SMMatch} :
    ∀ {cs : List SMMatch} {best : Option SMMatch},
      x ∈ Matcher.resolveAux best cs → best = some x ∨ x ∈ cs := by
  intro cs
  induction cs with
  | nil =>
    intro best hx
    cases best with
    | none => simp [Matcher.resolveAux] at hx
    | some b =>
      simp only [Matcher.resolveAux, List.mem_singleton] at hx
      exact Or.inl (by rw [hx])
  | cons c rest ih =>
    intro best hx
    cases best with
    | none =>
      simp only [Matcher.resolveAux] at hx
      rcases ih hx with h | h
      · exact Or.inr (List.mem_cons.mpr (Or.inl (Option.some_inj.mp h.symm)))
      · exact Or.inr (List.mem_cons_of_mem _ h)
    | some b =>
      simp only [Matcher.resolveAux] at hx
      by_cases hov : c.begin_ < b.end_
      · rw [if_neg (not_not_intro hov)] at hx
        by_cases hsc : c.score ≤ b.score
        · rw [if_pos hsc] at hx
          rcases ih hx with h | h
          · exact Or.inl h
          · exact Or.inr (List.mem_cons_of_mem _ h)
        · rw [if_neg hsc] at hx
          rcases ih hx with h | h
          · exact Or.inr (List.mem_cons.mpr (Or.inl (Option.some_inj.mp h.symm)))
          · exact Or.inr (List.mem_cons_of_mem _ h)
      · rw [if_pos hov] at hx
        rcases List.mem_cons.mp hx with h | h
        · exact Or.inl (by rw [h])
        · rcases ih h with h2 | h2
          · exact Or.inr (List.mem_cons.mpr (Or.inl (Option.some_inj.mp h2.symm)))
          · exact Or.inr (List.mem_cons_of_mem _ h2)

/-- A resolved match is a member of the candidate stream. -/
theorem mem_resolve {cs : List SMMatch} {x : SMMatch} (h : x ∈ Matcher.resolve cs) :
    x ∈ cs := by
  cases cs with
  | nil => simp [Matcher.resolve, Matcher.resolveAux] at h
  | cons c rest =>
    simp only [Matcher.resolve, Matcher.resolveAux] at h
    rcases mem_resolveAux h with h2 | h2
    · exact List.mem_cons.mpr (Or.inl (Option.some_inj.mp h2.symm))
    · exact List.mem_cons_of_mem _ h2

/-- Invariant of the resolver loop: if the pending candidates are sorted by
begin index and all begin at or after the current best match, the emitted
matches are separated (each ends no later than the next begins) and all begin
at or after the current best match. -/
theorem resolveAux_pairwise :
    ∀ (cs : List SMMatch) (b : SMMatch),
      cs.Pairwise (fun x y => x.begin_ ≤ y.begin_) →
      (∀ c ∈ cs, b.begin_ ≤ c.begin_) →
      (Matcher.resolveAux (some b) cs).Pairwise (fun x y => x.end_ ≤ y.begin_) ∧
      (∀ x ∈ Matcher.resolveAux (some b) cs, b.begin_ ≤ x.begin_) := by
  intro cs
  induction cs with
  | nil =>
    intro b _ _
    constructor
    · simp [Matcher.resolveAux]
    · intro x hx
      simp only [Matcher.resolveAux, List.mem_singleton] at hx
      rw [hx]
  | cons c rest ih =>
    intro b hs hb
    rw [List.pairwise_cons] at hs
    obtain ⟨hc, hrest⟩ := hs
    have hbc : b.begin_ ≤ c.begin_ := hb c (List.mem_cons_self c rest)
    have hbrest : ∀ x ∈ rest, b.begin_ ≤ x.begin_ :=
      fun x hx => hb x (List.mem_cons_of_mem _ hx)
    simp only [Matcher.resolveAux]
    by_cases hov : c.begin_ < b.end_
    · rw [if_neg (not_not_intro hov)]
      by_cases hsc : c.score ≤ b.score
      · rw [if_pos hsc]
        exact ih b hrest hbrest
      · rw [if_neg hsc]
        have ihc := ih c hrest hc
        exact ⟨ihc.1, fun x hx => le_trans hbc (ihc.2 x hx)⟩
    · rw [if_pos hov]
      have ihc := ih c hrest hc
      have hbe : b.end_ ≤ c.begin_ := Nat.le_of_not_lt hov
      constructor
      · rw [List.pairwise_cons]
        exact ⟨fun y hy => le_trans hbe (ihc.2 y hy), ihc.1⟩
      · intro x hx
        rcases List.mem_cons.mp hx with h | h
        · rw [h]
        · exact le_trans hbc (ihc.2 x h)

/-- If the candidate stream is sorted by begin index, the resolver's output
is separated: every emitted match ends at or before the next one begins. -/
theorem resolve_pairwise {cs : List SMMatch}
    (h : cs.Pairwise fun x y => x.begin_ ≤ y.begin_) :
    (Matcher.resolve cs).Pairwise fun x y => x.end_ ≤ y.begin_ := by
  cases cs with
  | nil => simp [Matcher.resolve, Matcher.resolveAux]
  | cons c rest =>
    rw [List.pairwise_cons] at h
    simpa only [Matcher.resolve, Matcher.resolveAux] using
      (resolveAux_pairwise rest c h.2 h.1).1

/-- On a two-candidate stream whose second candidate overlaps the first, the
resolver keeps exactly the strictly better one (the first on equal scores). -/
theorem resolve_pair {a b : SMMatch} (hov : b.begin_ < a.end_) :
    Matcher.resolve [a, b] = [if a.score < b.score then b else a] := by
  simp only [Matcher.resolve, Matcher.resolveAux]
  rw [if_neg (not_not_intro hov)]
  by_cases hsc : b.score ≤ a.score
  · rw [if_pos hsc, if_neg (not_lt.mpr hsc)]
  · rw [if_neg hsc, if_pos (lt_of_not_ge hsc)]

/-- C2 (counterexample): the claim "for two overlapping candidates the one
with the strictly higher score wins" fails when a third candidate intervenes.
In the sorted, well-formed stream `[a, x, b]`, the candidates `a` and `b`
overlap and `a` scores higher than `b`, yet `b` is emitted and `a` is not
(`x` displaces `a`, then `b` starts a new cluster past `x`). -/
theorem resolve_higher_score_cex :
    ([(⟨0, 10, Rat.mk' 9 10 (by decide) (by decide)⟩ : SMMatch),
      ⟨5, 6, Rat.mk' 19 20 (by decide) (by decide)⟩,
      ⟨6, 10, Rat.mk' 1 2 (by decide) (by decide)⟩].Pairwise
        fun x y => x.begin_ ≤ y.begin_) ∧
    (∀ m ∈ [(⟨0, 10, Rat.mk' 9 10 (by decide) (by decide)⟩ : SMMatch),
      ⟨5, 6, Rat.mk' 19 20 (by decide) (by decide)⟩,
      ⟨6, 10, Rat.mk' 1 2 (by decide) (by decide)⟩], m.begin_ < m.end_) ∧
    (0 : Nat) < 6 ∧ (6 : Nat) < 10 ∧
    Rat.mk' 1 2 (by decide) (by decide) < Rat.mk' 9 10 (by decide) (by decide) ∧
    (⟨6, 10, Rat.mk' 1 2 (by decide) (by decide)⟩ : SMMatch) ∈
      Matcher.resolve [⟨0, 10, Rat.mk' 9 10 (by decide) (by decide)⟩,
        ⟨5, 6, Rat.mk' 19 20 (by decide) (by decide)⟩,
        ⟨6, 10, Rat.mk' 1 2 (by decide) (by decide)⟩] ∧
    (⟨0, 10, Rat.mk' 9 10 (by decide) (by decide)⟩ : SMMatch) ∉
      Matcher.resolve [⟨0, 10, Rat.mk' 9 10 (by decide) (by decide)⟩,
        ⟨5, 6, Rat.mk' 19 20 (by decide) (by decide)⟩,
        ⟨6, 10, Rat.mk' 1 2 (by decide) (by decide)⟩] := by
  decide

/-- C2 (amended): for two overlapping candidates `a`, `b` of a sorted,
well-formed stream, at most one of them appears in the resolver's output;
and on the stream consisting of exactly `a` and `b`, the strictly
higher-scoring candidate is the sole output, the earlier `a` winning on equal
scores (strict `>` is needed to replace the current best). -/
theorem resolve_overlap_at_most_one (stream : List SMMatch) (a b : SMMatch)
    (hsort : stream.Pairwise fun x y => x.begin_ ≤ y.begin_)
    (hwf : ∀ m ∈ stream, m.begin_ < m.end_)
    (_ha : a ∈ stream) (hb : b ∈ stream)
    (hab : a.begin_ < b.begin_) (hba : b.begin_ < a.end_) :
    ¬(a ∈ Matcher.resolve stream ∧ b ∈ Matcher.resolve stream) ∧
    Matcher.resolve [a, b] = [if a.score < b.score then b else a] := by
  refine ⟨?_, resolve_pair hba⟩
  rintro ⟨hra, hrb⟩
  have hp : (Matcher.resolve stream).Pairwise
      (fun x y => x.end_ ≤ y.begin_ ∨ y.end_ ≤ x.begin_) :=
    (resolve_pairwise hsort).imp (fun h => Or.inl h)
  have hsym : Symmetric (fun x y : SMMatch => x.end_ ≤ y.begin_ ∨ y.end_ ≤ x.begin_) :=
    fun x y h => h.symm
  have hne : a ≠ b := fun h => absurd hab (by rw [h]; exact lt_irrefl _)
  have hwfb := hwf b hb
  rcases hp.forall hsym hra hrb hne with h | h
  · omega
  · omega

/-- C2 (amended) witness: the amended claim at the concrete sorted stream
`[⟨0,2,1⟩, ⟨1,3,2⟩]` of two overlapping candidates. -/
theorem resolve_overlap_at_most_one_witness :
    ¬((⟨0, 2, (1 : ℚ)⟩ : SMMatch) ∈ Matcher.resolve [⟨0, 2, 1⟩, ⟨1, 3, 2⟩] ∧
      (⟨1, 3, (2 : ℚ)⟩ : SMMatch) ∈ Matcher.resolve [⟨0, 2, 1⟩, ⟨1, 3, 2⟩]) :=
  (resolve_overlap_at_most_one [⟨0, 2, 1⟩, ⟨1, 3, 2⟩] ⟨0, 2, 1⟩ ⟨1, 3, 2⟩
    (by decide) (by decide) (by decide) (by decide) (by decide) (by decide)).1

/-- C3 (counterexample): `[a, x, b]` is a single maximal overlap cluster in
the "pairwise or transitively overlapping" sense (`a` overlaps `x` and `a`
overlaps `b`), the stream is sorted and well-formed, yet two candidates of
the cluster survive into the resolver's output, refuting "exactly one
candidate survives per cluster". -/
theorem resolve_cluster_cex :
    ((0 : Nat) < 6 ∧ (5 : Nat) < 10) ∧
    ((0 : Nat) < 10 ∧ (6 : Nat) < 10) ∧
    ([(⟨0, 10, Rat.mk' 9 10 (by decide) (by decide)⟩ : SMMatch),
      ⟨5, 6, Rat.mk' 19 20 (by decide) (by decide)⟩,
      ⟨6, 10, Rat.mk' 1 2 (by decide) (by decide)⟩].Pairwise
        fun x y => x.begin_ ≤ y.begin_) ∧
    (∀ m ∈ [(⟨0, 10, Rat.mk' 9 10 (by decide) (by decide)⟩ : SMMatch),
      ⟨5, 6, Rat.mk' 19 20 (by decide) (by decide)⟩,
      ⟨6, 10, Rat.mk' 1 2 (by decide) (by decide)⟩], m.begin_ < m.end_) ∧
    (Matcher.resolve [⟨0, 10, Rat.mk' 9 10 (by decide) (by decide)⟩,
      ⟨5, 6, Rat.mk' 19 20 (by decide) (by decide)⟩,
      ⟨6, 10, Rat.mk' 1 2 (by decide) (by decide)⟩]).length = 2 := by
  decide

/-- The running best of the resolver's cluster scan is a member of the
scanned candidates. -/
theorem foldlBest_mem :
    ∀ (cs : List SMMatch) (b : SMMatch),
      cs.foldl (fun best m => if m.score ≤ best.score then best else m) b ∈ b :: cs := by
  intro cs
  induction cs with
  | nil => intro b; simp
  | cons c rest ih =>
    intro b
    simp only [List.foldl_cons]
    by_cases hsc : c.score ≤ b.score
    · rw [if_pos hsc]
      rcases List.mem_cons.mp (ih b) with h | h
      · rw [h]; exact List.mem_cons_self _ _
      · exact List.mem_cons_of_mem _ (List.mem_cons_of_mem _ h)
    · rw [if_neg hsc]
      rcases List.mem_cons.mp (ih c) with h | h
      · rw [h]; exact List.mem_cons_of_mem _ (List.mem_cons_self _ _)
      · exact List.mem_cons_of_mem _ (List.mem_cons_of_mem _ h)

/-- The running best of the resolver's cluster scan has the maximum score. -/
theorem foldlBest_max :
    ∀ (cs : List SMMatch) (b : SMMatch), ∀ x ∈ b :: cs,
      x.score ≤ (cs.foldl (fun best m => if m.score ≤ best.score then best else m) b).score := by
  intro cs
  induction cs with
  | nil =>
    intro b x hx
    rcases List.mem_cons.mp hx with h | h
    · rw [h]; simp
    · simp at h
  | cons c rest ih =>
    intro b x hx
    simp only [List.foldl_cons]
    by_cases hsc : c.score ≤ b.score
    · rw [if_pos hsc]
      rcases List.mem_cons.mp hx with h | h
      · exact h ▸ ih b b (List.mem_cons_self _ _)
      · rcases List.mem_cons.mp h with h2 | h2
        · exact h2 ▸ le_trans hsc (ih b b (List.mem_cons_self _ _))
        · exact ih b x (List.mem_cons_of_mem _ h2)
    · rw [if_neg hsc]
      rcases List.mem_cons.mp hx with h | h
      · exact h ▸ le_trans (le_of_lt (lt_of_not_ge hsc)) (ih c c (List.mem_cons_self _ _))
      · rcases List.mem_cons.mp h with h2 | h2
        · exact h2 ▸ ih c c (List.mem_cons_self _ _)
        · exact ih c x (List.mem_cons_of_mem _ h2)

/-- Resolver scan of a fully overlapping cluster: when every pending
candidate overlaps the current best, the loop emits only the running best. -/
theorem resolveAux_cluster :
    ∀ (cs : List SMMatch) (b : SMMatch),
      (b :: cs).Pairwise (fun x y => x.begin_ < y.end_ ∧ y.begin_ < x.end_) →
      Matcher.resolveAux (some b) cs =
        [cs.foldl (fun best m => if m.score ≤ best.score then best else m) b] := by
  intro cs
  induction cs with
  | nil => intro b _; simp [Matcher.resolveAux]
  | cons c rest ih =>
    intro b hov
    rw [List.pairwise_cons] at hov
    obtain ⟨hb, hrest⟩ := hov
    have hbc := hb c (List.mem_cons_self c rest)
    simp only [Matcher.resolveAux, List.foldl_cons]
    rw [if_neg (not_not_intro hbc.2)]
    by_cases hsc : c.score ≤ b.score
    · rw [if_pos hsc, if_pos hsc]
      refine ih b ?_
      rw [List.pairwise_cons] at hrest ⊢
      exact ⟨fun y hy => hb y (List.mem_cons_of_mem _ hy), hrest.2⟩
    · rw [if_neg hsc, if_neg hsc]
      exact ih c hrest

/-- C3 (amended): within one run of pairwise mutually overlapping candidates
(each pair of the run overlaps), exactly one candidate survives into the
resolver's output: the running best of the scan, which is a member of the
run attaining its maximum score (strict `>` to replace, so it is the
earliest maximum). -/
theorem resolve_pairwise_cluster_unique (c : SMMatch) (cs : List SMMatch)
    (hov : (c :: cs).Pairwise fun x y => x.begin_ < y.end_ ∧ y.begin_ < x.end_) :
    Matcher.resolve (c :: cs) =
      [cs.foldl (fun best m => if m.score ≤ best.score then best else m) c] ∧
    cs.foldl (fun best m => if m.score ≤ best.score then best else m) c ∈ c :: cs ∧
    (∀ x ∈ c :: cs,
      x.score ≤ (cs.foldl (fun best m => if m.score ≤ best.score then best else m) c).score) := by
  refine ⟨?_, foldlBest_mem cs c, foldlBest_max cs c⟩
  simp only [Matcher.resolve, Matcher.resolveAux]
  exact resolveAux_cluster cs c hov

/-- C3 (amended) witness: the amended claim at the concrete pairwise
overlapping cluster `[⟨0,3,1⟩, ⟨1,4,2⟩, ⟨2,5,2⟩]` (the second candidate is
the earliest maximum and the sole survivor). -/
theorem resolve_pairwise_cluster_unique_witness :
    Matcher.resolve [(⟨0, 3, (1 : ℚ)⟩ : SMMatch), ⟨1, 4, 2⟩, ⟨2, 5, 2⟩] =
      [[(⟨1, 4, (2 : ℚ)⟩ : SMMatch), ⟨2, 5, 2⟩].foldl
        (fun best m => if m.score ≤ best.score then best else m) ⟨0, 3, 1⟩] :=
  (resolve_pairwise_cluster_unique ⟨0, 3, 1⟩ [⟨1, 4, 2⟩, ⟨2, 5, 2⟩] (by decide)).1

/-! ## Token span lemmas -/

/-- Every token of a well-formed span list begins at or after the list's
offset. -/
theorem spansFrom_le_begin :
    ∀ (ts : List Token) (offset : Nat), spansFrom offset ts →
      ∀ k, k < ts.length → offset ≤ (ts.getD k ⟨[], 0, 0, ""⟩).begin_ := by
  intro ts
  induction ts with
  | nil => intro offset _ k hk; simp at hk
  | cons t rest ih =>
    intro offset h k hk
    simp only [spansFrom] at h
    obtain ⟨h1, h2, h3⟩ := h
    cases k with
    | zero => simp [List.getD_cons_zero, h1]
    | succ k =>
      rw [List.getD_cons_succ]
      exact le_trans (h1 ▸ h2) (ih t.end_ h3 k (by simpa using hk))

/-- Every token of a well-formed span list begins no later than it ends. -/
theorem spansFrom_self_le :
    ∀ (ts : List Token) (offset : Nat), spansFrom offset ts →
      ∀ k, k < ts.length →
        (ts.getD k ⟨[], 0, 0, ""⟩).begin_ ≤ (ts.getD k ⟨[], 0, 0, ""⟩).end_ := by
  intro ts
  induction ts with
  | nil => intro offset _ k hk; simp at hk
  | cons t rest ih =>
    intro offset h k hk
    simp only [spansFrom] at h
    cases k with
    | zero => simpa [List.getD_cons_zero] using h.2.1
    | succ k =>
      rw [List.getD_cons_succ]
      exact ih t.end_ h.2.2 k (by simpa using hk)

/-- In a well-formed span list, an earlier token's end is at most a later
token's begin. -/
theorem spansFrom_sep :
    ∀ (ts : List Token) (offset : Nat), spansFrom offset ts →
      ∀ i j, i < j → j < ts.length →
        (ts.getD i ⟨[], 0, 0, ""⟩).end_ ≤ (ts.getD j ⟨[], 0, 0, ""⟩).begin_ := by
  intro ts
  induction ts with
  | nil => intro offset _ i j _ hj; simp at hj
  | cons t rest ih =>
    intro offset h i j hij hj
    simp only [spansFrom] at h
    obtain ⟨h1, h2, h3⟩ := h
    cases i with
    | zero =>
      cases j with
      | zero => omega
      | succ j =>
        rw [List.getD_cons_zero, List.getD_cons_succ]
        exact spansFrom_le_begin rest t.end_ h3 j (by simpa using hj)
    | succ i =>
      cases j with
      | zero => omega
      | succ j =>
        rw [List.getD_cons_succ, List.getD_cons_succ]
        exact ih t.end_ h3 i j (by omega) (by simpa using hj)

/-- The end offset of a well-formed span list is at least its offset. -/
theorem le_endOff :
    ∀ (ts : List Token) (offset : Nat), spansFrom offset ts →
      offset ≤ endOff offset ts := by
  intro ts
  induction ts with
  | nil => intro offset _; simp [endOff]
  | cons t rest ih =>
    intro offset h
    simp only [spansFrom] at h
    simp only [endOff]
    exact le_trans (h.1 ▸ h.2.1) (ih t.end_ h.2.2)

/-- Every token of a well-formed span list ends at or before the list's end
offset. -/
theorem spansFrom_end_le :
    ∀ (ts : List Token) (offset : Nat), spansFrom offset ts →
      ∀ k, k < ts.length → (ts.getD k ⟨[], 0, 0, ""⟩).end_ ≤ endOff offset ts := by
  intro ts
  induction ts with
  | nil => intro offset _ k hk; simp at hk
  | cons t rest ih =>
    intro offset h k hk
    simp only [spansFrom] at h
    simp only [endOff]
    cases k with
    | zero =>
      rw [List.getD_cons_zero]
      exact le_endOff rest t.end_ h.2.2
    | succ k =>
      rw [List.getD_cons_succ]
      exact ih t.end_ h.2.2 k (by simpa using hk)

/-- C1: for a candidate-window stream for one (sentence, query) pair
delivered in non-decreasing begin-token-index order (the stated
precondition), with well-formed windows over the sentence's token list (the
similarity engine's contract) and the tokeniser's span invariant for the
sentence's tokens, the matches yielded by `Matcher.Text.match` are pairwise
non-overlapping: every yielded match's begin character offset is at least
the end offset of every previously yielded match. -/
theorem match_nonoverlapping (offset : Nat) (tokens : List Token) (stream : List SMMatch)
    (htok : spansFrom offset tokens)
    (hsort : stream.Pairwise fun x y => x.begin_ ≤ y.begin_)
    (hwf : ∀ m ∈ stream, m.begin_ < m.end_ ∧ m.end_ ≤ tokens.length) :
    (Matcher.matchSentence tokens stream).Pairwise fun m1 m2 => m1.end_ ≤ m2.begin_ := by
  have hp := resolve_pairwise hsort
  unfold Matcher.matchSentence
  rw [List.pairwise_map]
  refine hp.imp_of_mem ?_
  intro x y hx hy hxy
  obtain ⟨hx1, _⟩ := hwf x (mem_resolve hx)
  obtain ⟨hy1, hy2⟩ := hwf y (mem_resolve hy)
  simp only [Matcher.make_match]
  exact spansFrom_sep tokens offset htok (x.end_ - 1) y.begin_ (by omega) (by omega)

/-- C1 witness: the non-overlap theorem at a concrete two-token sentence and
a concrete sorted, well-formed candidate stream. -/
theorem match_nonoverlapping_witness :
    (Matcher.matchSentence [⟨['a'], 0, 1, "word"⟩, ⟨['b'], 1, 2, "word"⟩]
      [⟨0, 1, (1 : ℚ)⟩, ⟨1, 2, 1⟩]).Pairwise fun m1 m2 => m1.end_ ≤ m2.begin_ :=
  match_nonoverlapping 0 _ _ (by decide) (by decide) (by decide)

/-! ## Sentence re-anchoring (`Tokeniser.sentences`) -/

/-- A successful `text.index(pat, b)` yields a position at or after `b`
whose occurrence fits inside the text. -/
theorem indexFrom_bounds {text pat : List Char} {b i : Nat}
    (h : Tokeniser.indexFrom text pat b = some i) :
    b ≤ i ∧ i + pat.length ≤ text.length := by
  have hp := List.find?_some h
  rw [Bool.and_eq_true, decide_eq_true_eq] at hp
  obtain ⟨hbi, hocc⟩ := hp
  have hpre : pat <+: text.drop i := by
    rw [← List.isPrefixOf_iff_prefix]
    exact hocc
  have hlen := hpre.length_le
  rw [List.length_drop] at hlen
  have hmem := List.mem_of_find?_eq_some h
  rw [List.mem_range] at hmem
  exact ⟨hbi, by omega⟩

/-- An empty Python slice. -/
theorem pySlice_self (t : List Char) (b : Nat) : pySlice t b b = [] := by
  apply List.drop_eq_nil_of_le
  simp [List.length_take]

/-- Adjacent Python slices concatenate. -/
theorem pySlice_append (t : List Char) (b m e : Nat)
    (hbm : b ≤ m) (hme : m ≤ e) (hbl : b ≤ t.length) :
    pySlice t b m ++ pySlice t m e = pySlice t b e := by
  unfold pySlice
  have h1 : t.take e = t.take m ++ (t.take e).drop m := by
    conv_lhs => rw [← List.take_append_drop m (t.take e)]
    rw [List.take_take, Nat.min_eq_left hme]
  have hlen : b ≤ (t.take m).length := by
    rw [List.length_take]; omega
  conv_rhs => rw [h1, List.drop_append_of_le_length hlen]

/-- The length of a Python slice with ordered, in-range bounds. -/
theorem pySlice_length (t : List Char) (b e : Nat) (hbe : b ≤ e) (hel : e ≤ t.length) :
    (pySlice t b e).length = e - b := by
  unfold pySlice
  rw [List.length_drop, List.length_take]
  omega

/-- Invariant of the `Tokeniser.sentences` loop: when every punkt sentence is
locatable, the concatenation of the yields equals the slice of `text` from
the loop's starting boundary to its final boundary, and the boundaries are
ordered and in range. -/
theorem sentencesFrom_flatten (text : List Char) :
    ∀ (ss : List (List Char)) (b : Nat) (ys : List (List Char)) (e : Nat),
      Tokeniser.sentencesFrom text b ss = some ys →
      Tokeniser.sentencesEndFrom text b ss = some e →
      b ≤ text.length →
      ys.flatten = pySlice text b e ∧ b ≤ e ∧ e ≤ text.length := by
  intro ss
  induction ss with
  | nil =>
    intro b ys e hys he hb
    simp only [Tokeniser.sentencesFrom, Option.some_inj] at hys
    simp only [Tokeniser.sentencesEndFrom, Option.some_inj] at he
    subst hys; subst he
    simp [pySlice_self, hb]
  | cons s rest ih =>
    intro b ys e hys he hb
    cases hidx : Tokeniser.indexFrom text s b with
    | none =>
      simp only [Tokeniser.sentencesFrom, hidx] at hys
      exact Option.noConfusion hys
    | some i =>
      simp only [Tokeniser.sentencesFrom, Tokeniser.sentencesEndFrom, hidx] at hys he
      obtain ⟨hbi, hfit⟩ := indexFrom_bounds hidx
      cases hrest : Tokeniser.sentencesFrom text (i + s.length) rest with
      | none =>
        simp only [hrest] at hys
        exact Option.noConfusion hys
      | some ys2 =>
        simp only [hrest, Option.some_inj] at hys
        subst hys
        obtain ⟨h1, h2, h3⟩ := ih (i + s.length) ys2 e hrest he (by omega)
        refine ⟨?_, by omega, h3⟩
        rw [List.flatten_cons, h1]
        exact pySlice_append text b (i + s.length) e (by omega) h2 hb

/-- C4 (counterexample): with the punkt collaborator returning `["Hi."]` for
the text `"Hi. "` (punkt strips surrounding whitespace, so the list is a
legal collaborator output: every substring is locatable at or after the
previous boundary), `Tokeniser.sentences` yields `["Hi."]`, whose
concatenation drops the trailing space and is not the text. -/
theorem sentences_concat_cex :
    Tokeniser.sentences ['H', 'i', '.', ' '] [['H', 'i', '.']] = some [['H', 'i', '.']] ∧
    ([['H', 'i', '.']] : List (List Char)).flatten ≠ ['H', 'i', '.', ' '] := by
  decide

/-- C4 (amended): when every punkt sentence is locatable at or after the
previous boundary, the concatenation of the substrings yielded by
`Tokeniser.sentences` equals the prefix of `text` up to the final re-anchored
boundary — no characters are dropped or duplicated before that boundary, and
the concatenation equals `text` exactly when the final boundary is the
text's length (text after the last located sentence is dropped). -/
theorem sentences_concat_boundary (text : List Char) (punkt ys : List (List Char)) (e : Nat)
    (hs : Tokeniser.sentences text punkt = some ys)
    (he : Tokeniser.sentencesEndFrom text 0 punkt = some e) :
    ys.flatten = text.take e ∧ e ≤ text.length ∧
    (e = text.length → ys.flatten = text) := by
  obtain ⟨h1, _, h3⟩ :=
    sentencesFrom_flatten text punkt 0 ys e hs he (Nat.zero_le _)
  have ht : ys.flatten = text.take e := by
    rw [h1]; unfold pySlice; rw [List.drop_zero]
  refine ⟨ht, h3, fun hel => ?_⟩
  rw [ht, hel, List.take_length]

/-- C4 (amended) witness: the amended claim at the concrete text
`"Hi. Yo."` split by punkt into `["Hi.", "Yo."]`; the final boundary is the
text's length and the concatenation reconstructs the text. -/
theorem sentences_concat_boundary_witness :
    ([['H', 'i', '.'], [' ', 'Y', 'o', '.']] : List (List Char)).flatten =
      ['H', 'i', '.', ' ', 'Y', 'o', '.'].take 7 ∧
    7 ≤ ('H' :: ['i', '.', ' ', 'Y', 'o', '.']).length ∧
    (7 = ('H' :: ['i', '.', ' ', 'Y', 'o', '.']).length →
      ([['H', 'i', '.'], [' ', 'Y', 'o', '.']] : List (List Char)).flatten =
        ['H', 'i', '.', ' ', 'Y', 'o', '.']) :=
  sentences_concat_boundary ['H', 'i', '.', ' ', 'Y', 'o', '.']
    [['H', 'i', '.'], ['Y', 'o', '.']] [['H', 'i', '.'], [' ', 'Y', 'o', '.']] 7
    (by decide) (by decide)

/-! ## Bigram encoding -/

/-- C5 (counterexample): a whitespace token whose text has length 1 yields
the empty bigram multiset when whitespace omission is enabled (the default),
refuting "the bigram encoding of a length-1 token is never empty". -/
theorem token_bigrams_ws_cex :
    Matcher.token_bigrams true ⟨[' '], 0, 1, Tokeniser.ws⟩ = 0 ∧
    (⟨[' '], 0, 1, Tokeniser.ws⟩ : Token).string.length = 1 := by
  constructor
  · decide
  · decide

/-- C5 (amended): for every token whose text has length 1 and which is not
an omitted whitespace token (its tag is not `WS`, or whitespace omission is
disabled), `Matcher.token_bigrams` has multiplicity sum at least 1: the
length-1 string is padded with one boundary character before
histogramming. -/
theorem token_bigrams_len1_nonempty (omit_whitespaces : Bool) (token : Token)
    (h1 : token.string.length = 1)
    (h2 : ¬(token.tag = Tokeniser.ws ∧ omit_whitespaces = true)) :
    0 < Multiset.card (Matcher.token_bigrams omit_whitespaces token) := by
  unfold Matcher.token_bigrams
  rw [if_neg h2]
  obtain ⟨c, hc⟩ : ∃ c, token.string = [c] := by
    cases hs : token.string with
    | nil => rw [hs] at h1; simp at h1
    | cons c rest =>
      cases rest with
      | nil => exact ⟨c, rfl⟩
      | cons d rest2 => rw [hs] at h1; simp at h1
  simp [hc, strBigrams]

/-- C5 (amended) witness: the amended claim at the length-1 word token
`"x"` with whitespace omission enabled. -/
theorem token_bigrams_len1_nonempty_witness :
    (⟨['x'], 0, 1, Tokeniser.word⟩ : Token).string.length = 1 ∧
    0 < Multiset.card (Matcher.token_bigrams true ⟨['x'], 0, 1, Tokeniser.word⟩) :=
  ⟨by decide, token_bigrams_len1_nonempty true ⟨['x'], 0, 1, Tokeniser.word⟩
    (by decide) (by decide)⟩

/-! ## The Lowercase transform -/

/-- C6 (counterexample): with `min_len = 4` and the "except all-caps" flag
unset, the short word token `"Abc"` is passed through unchanged, although
the claim's keep-condition (short AND all-caps AND flag set) does not hold
and lowercasing would have changed the token: the code also keeps short
words whenever the flag is unset. -/
theorem lowercase_short_word_cex :
    Lowercase.transform 4 false [⟨['A', 'b', 'c'], 0, 3, Tokeniser.word⟩]
      = [⟨['A', 'b', 'c'], 0, 3, Tokeniser.word⟩] ∧
    ¬((['A', 'b', 'c'] : List Char).length < 4 ∧
      strUpper ['A', 'b', 'c'] = ['A', 'b', 'c'] ∧ false = true) ∧
    strLower ['A', 'b', 'c'] ≠ ['A', 'b', 'c'] := by
  decide

/-- C6 (amended): the built-in Lowercase transform lowercases a WORD token's
text unless the token's length is below the configured minimum AND (the
"except all-caps" flag is unset OR the token is entirely upper-case); tokens
whose tag is not WORD are passed through unchanged (spans are never
touched). -/
theorem lowercase_transform_characterisation (min_len : Nat) (except_caps : Bool)
    (tokens : List Token) :
    Lowercase.transform min_len except_caps tokens = tokens.map (fun token =>
      if token.tag = Tokeniser.word ∧
         ¬(token.string.length < min_len ∧
           (except_caps = false ∨ strUpper token.string = token.string))
      then { token with string := strLower token.string }
      else token) := by
  unfold Lowercase.transform
  congr 1
  funext token
  by_cases hw : token.tag = Tokeniser.word
  · by_cases hl : token.string.length < min_len
    · cases hec : except_caps with
      | false => simp [Lowercase.transformToken, hw, hl]
      | true =>
        by_cases hup : strUpper token.string = token.string
        · simp [Lowercase.transformToken, hw, hl, hup]
        · simp [Lowercase.transformToken, hw, hl, hup]
    · simp [Lowercase.transformToken, hw, hl]
  · simp [Lowercase.transformToken, hw]

/-! ## Sequence bigrams of fully strippable strings -/

/-- The leading strip loop removes everything when every token is
strippable. -/
theorem stripFront_eq_nil {p : Token → Bool} :
    ∀ {ts : List Token}, (∀ t ∈ ts, p t = true) → Matcher.stripFront p ts = [] := by
  intro ts
  induction ts with
  | nil => intro _; rfl
  | cons t rest ih =>
    intro h
    simp only [Matcher.stripFront]
    rw [if_pos (h t (List.mem_cons_self t rest))]
    exact ih (fun x hx => h x (List.mem_cons_of_mem _ hx))

/-- C10: for every input string all of whose tokens are strippable
(whitespace, punctuation or stop words), `Matcher.sequence_bigrams` returns
the empty bigram multiset: the leading trim loop already removes every
token and the sum over the empty remainder is empty. -/
theorem sequence_bigrams_all_strippable (P W : Char → Bool)
    (transforms : List (List Token → List Token)) (stopwords : List (List Char))
    (omit_whitespaces : Bool) (string : List Char)
    (h : ∀ t ∈ Matcher.tokenise P W transforms string,
      Matcher.is_strip_token stopwords t = true) :
    Matcher.sequence_bigrams P W transforms stopwords omit_whitespaces string = 0 := by
  unfold Matcher.sequence_bigrams
  rw [stripFront_eq_nil h]
  rfl

/-- C10 witness: the string `"the ."` over a punctuation set containing `.`,
a whitespace set containing the space, and the stop-word set `{the}`
tokenises into strippable tokens only and its sequence bigrams are empty. -/
theorem sequence_bigrams_all_strippable_witness :
    Matcher.sequence_bigrams (fun c => c == '.') (fun c => c == ' ') []
      [['t', 'h', 'e']] true ['t', 'h', 'e', ' ', '.'] = 0 :=
  sequence_bigrams_all_strippable _ _ _ _ _ _ (by decide)

/-! ## Tokeniser coverage (C7) -/

/-- Runs produced by the tokeniser's scan are non-empty. -/
theorem tokRuns_ne_nil (isSplit : Char → Bool) :
    ∀ (s : List Char), ∀ r ∈ Tokeniser.tokRuns isSplit s, r ≠ [] := by
  intro s
  induction s with
  | nil => intro r hr; simp [Tokeniser.tokRuns] at hr
  | cons c s ih =>
    intro r hr
    cases h : Tokeniser.tokRuns isSplit s with
    | nil =>
      simp only [Tokeniser.tokRuns, h, List.mem_singleton] at hr
      rw [hr]; simp
    | cons r0 rs =>
      cases r0 with
      | nil => exact absurd rfl (ih [] (h ▸ List.mem_cons_self [] rs))
      | cons d r0tl =>
        simp only [Tokeniser.tokRuns, h] at hr
        by_cases hsp : isSplit c = isSplit d
        · rw [if_pos hsp] at hr
          rcases List.mem_cons.mp hr with h2 | h2
          · rw [h2]; simp
          · exact ih r (h ▸ List.mem_cons_of_mem _ h2)
        · rw [if_neg hsp] at hr
          rcases List.mem_cons.mp hr with h2 | h2
          · rw [h2]; simp
          · exact ih r (h ▸ h2)

/-- The runs of the tokeniser's scan concatenate back to the input. -/
theorem tokRuns_flatten (isSplit : Char → Bool) :
    ∀ (s : List Char), (Tokeniser.tokRuns isSplit s).flatten = s := by
  intro s
  induction s with
  | nil => rfl
  | cons c s ih =>
    cases h : Tokeniser.tokRuns isSplit s with
    | nil =>
      rw [h] at ih
      simp only [List.flatten_nil] at ih
      simp [Tokeniser.tokRuns, h, ← ih]
    | cons r0 rs =>
      cases r0 with
      | nil => exact absurd rfl (tokRuns_ne_nil isSplit s [] (h ▸ List.mem_cons_self [] rs))
      | cons d r0tl =>
        rw [h] at ih
        simp only [Tokeniser.tokRuns, h]
        by_cases hsp : isSplit c = isSplit d
        · rw [if_pos hsp]
          simp only [List.flatten_cons, List.cons_append, List.nil_append] at ih ⊢
          rw [ih]
        · rw [if_neg hsp]
          simp only [List.flatten_cons, List.cons_append, List.nil_append] at ih ⊢
          rw [ih]

/-- Converting non-empty runs to tokens yields an exactly covering token
list whose strings are the runs. -/
theorem runsToTokens_covers (P isSplit : Char → Bool) :
    ∀ (runs : List (List Char)) (offset : Nat), (∀ r ∈ runs, r ≠ []) →
      coversFrom offset (Tokeniser.runsToTokens P isSplit offset runs) ∧
      (Tokeniser.runsToTokens P isSplit offset runs).map Token.string = runs := by
  intro runs
  induction runs with
  | nil => intro offset _; exact ⟨trivial, rfl⟩
  | cons run rest ih =>
    intro offset h
    have hr : run ≠ [] := h run (List.mem_cons_self run rest)
    have ihr := ih (offset + run.length)
      (fun r hrr => h r (List.mem_cons_of_mem _ hrr))
    cases run with
    | nil => exact absurd rfl hr
    | cons d r0 =>
      simp only [Tokeniser.runsToTokens]
      by_cases hsd : isSplit d
      · rw [if_pos hsd]
        exact ⟨⟨rfl, rfl, hr, ihr.1⟩, by simp only [List.map_cons, ihr.2]⟩
      · rw [if_neg hsd]
        exact ⟨⟨rfl, rfl, hr, ihr.1⟩, by simp only [List.map_cons, ihr.2]⟩

/-- Exactly covering token lists have well-formed spans. -/
theorem coversFrom_spansFrom :
    ∀ (ts : List Token) (offset : Nat), coversFrom offset ts → spansFrom offset ts := by
  intro ts
  induction ts with
  | nil => intro _ _; trivial
  | cons t rest ih =>
    intro offset h
    simp only [coversFrom] at h
    obtain ⟨h1, h2, _, h4⟩ := h
    exact ⟨h1, by omega, ih t.end_ h4⟩

/-- Exactly covering token lists are contiguous. -/
theorem coversFrom_chain :
    ∀ (ts : List Token) (offset : Nat), coversFrom offset ts →
      List.Chain' (fun a b => a.end_ = b.begin_) ts := by
  intro ts
  induction ts with
  | nil => intro _ _; simp
  | cons t rest ih =>
    intro offset h
    simp only [coversFrom] at h
    cases rest with
    | nil => simp
    | cons u rest2 =>
      have hu := h.2.2.2
      simp only [coversFrom] at hu
      exact List.Chain'.cons (by rw [hu.1]) (ih t.end_ h.2.2.2)

/-- In an exactly covering token list, each token's span length is its
string length and its string is non-empty. -/
theorem coversFrom_mem :
    ∀ (ts : List Token) (offset : Nat), coversFrom offset ts →
      ∀ t ∈ ts, t.end_ = t.begin_ + t.string.length ∧ t.string ≠ [] := by
  intro ts
  induction ts with
  | nil => intro _ _ t ht; simp at ht
  | cons u rest ih =>
    intro offset h t ht
    simp only [coversFrom] at h
    rcases List.mem_cons.mp ht with h2 | h2
    · subst h2; exact ⟨by rw [h.1, h.2.1], h.2.2.1⟩
    · exact ih u.end_ h.2.2.2 t h2

/-- In an exactly covering token list whose strings concatenate to the
suffix of `full` at the list's offset, each token's string is the slice of
`full` at the token's span. -/
theorem coversFrom_slice :
    ∀ (ts : List Token) (offset : Nat) (full : List Char),
      coversFrom offset ts →
      full.drop offset = (ts.map Token.string).flatten →
      ∀ t ∈ ts, t.string = pySlice full t.begin_ t.end_ := by
  intro ts
  induction ts with
  | nil => intro _ _ _ _ t ht; simp at ht
  | cons u rest ih =>
    intro offset full h hflat t ht
    simp only [coversFrom] at h
    obtain ⟨h1, h2, _, h4⟩ := h
    simp only [List.map_cons, List.flatten_cons] at hflat
    rcases List.mem_cons.mp ht with h5 | h5
    · subst h5
      rw [h1, h2]
      unfold pySlice
      rw [← List.take_drop, hflat, List.take_left]
    · refine ih u.end_ full h4 ?_ t h5
      have hd : full.drop u.end_ = (full.drop offset).drop u.string.length := by
        rw [List.drop_drop, ← h2]
      rw [hd, hflat, List.drop_left]

/-- The end offset of an exactly covering token list is its offset plus the
total string length. -/
theorem coversFrom_endOff :
    ∀ (ts : List Token) (offset : Nat), coversFrom offset ts →
      endOff offset ts = offset + ((ts.map Token.string).flatten).length := by
  intro ts
  induction ts with
  | nil => intro offset _; simp [endOff]
  | cons t rest ih =>
    intro offset h
    simp only [coversFrom] at h
    simp only [endOff, List.map_cons, List.flatten_cons, List.length_append]
    rw [ih t.end_ h.2.2.2, h.2.1]
    omega

/-- The last token of a non-empty exactly covering token list ends at the
list's end offset. -/
theorem coversFrom_getLast :
    ∀ (ts : List Token) (offset : Nat) (d : Token), coversFrom offset ts → ts ≠ [] →
      (ts.getLastD d).end_ = endOff offset ts := by
  intro ts
  induction ts with
  | nil => intro _ _ h hne; exact absurd rfl hne
  | cons t rest ih =>
    intro offset d h _
    cases rest with
    | nil => simp [List.getLastD, endOff]
    | cons u rest2 =>
      rw [List.getLastD_cons]
      have h4 : coversFrom t.end_ (u :: rest2) := h.2.2.2
      exact ih t.end_ t h4 (by simp)

/-- The tokeniser's output exactly covers its input string. -/
theorem tokenise_covers (P W : Char → Bool) (s : List Char) :
    coversFrom 0 (Tokeniser.tokenise P W s) ∧
    ((Tokeniser.tokenise P W s).map Token.string).flatten = s := by
  have h := runsToTokens_covers P (fun c => P c || W c)
    (Tokeniser.tokRuns (fun c => P c || W c) s) 0
    (tokRuns_ne_nil _ s)
  refine ⟨h.1, ?_⟩
  unfold Tokeniser.tokenise
  rw [h.2, tokRuns_flatten]

/-- C7: for every input string, the tokens yielded by `Tokeniser.tokenise`
are contiguous and non-overlapping (each token ends where the next begins
and spans exactly its non-empty string), each token's string equals the
input sliced at its span, and the spans cover the input exactly once: the
concatenated token strings rebuild the input, the first token (if any)
begins at 0, and the last token ends at the input's length. -/
theorem tokenise_spans_cover (P W : Char → Bool) (s : List Char) :
    ((Tokeniser.tokenise P W s).map Token.string).flatten = s ∧
    List.Chain' (fun a b => a.end_ = b.begin_) (Tokeniser.tokenise P W s) ∧
    (∀ t ∈ Tokeniser.tokenise P W s,
      t.end_ = t.begin_ + t.string.length ∧ t.string ≠ [] ∧
      t.string = pySlice s t.begin_ t.end_) ∧
    ((Tokeniser.tokenise P W s).headD ⟨[], 0, 0, ""⟩).begin_ = 0 ∧
    ((Tokeniser.tokenise P W s).getLastD ⟨[], s.length, s.length, ""⟩).end_ = s.length := by
  obtain ⟨hc, hf⟩ := tokenise_covers P W s
  refine ⟨hf, coversFrom_chain _ 0 hc, ?_, ?_, ?_⟩
  · intro t ht
    obtain ⟨h1, h2⟩ := coversFrom_mem _ 0 hc t ht
    refine ⟨h1, h2, coversFrom_slice _ 0 s hc ?_ t ht⟩
    rw [List.drop_zero, hf]
  · cases hts : Tokeniser.tokenise P W s with
    | nil => simp
    | cons t rest =>
      rw [hts] at hc
      simpa [List.headD] using hc.1
  · by_cases hts : Tokeniser.tokenise P W s = []
    · rw [hts]
      simp [List.getLastD]
    · rw [coversFrom_getLast _ 0 _ hc hts, coversFrom_endOff _ 0 hc, hf]
      simp

/-- C7 witness: the coverage theorem at the concrete string `"ab c"`,
checking the concatenation conjunct, the first-token conjunct, and the slice
conjunct at the concrete first token. -/
theorem tokenise_spans_cover_witness :
    ((Tokeniser.tokenise (fun c => c == '.') (fun c => c == ' ')
      ['a', 'b', ' ', 'c']).map Token.string).flatten = ['a', 'b', ' ', 'c'] ∧
    ((Tokeniser.tokenise (fun c => c == '.') (fun c => c == ' ')
      ['a', 'b', ' ', 'c']).headD ⟨[], 0, 0, ""⟩).begin_ = 0 ∧
    (⟨['a', 'b'], 0, 2, Tokeniser.word⟩ : Token).string =
      pySlice ['a', 'b', ' ', 'c'] 0 2 :=
  ⟨(tokenise_spans_cover _ _ _).1, (tokenise_spans_cover _ _ _).2.2.2.1,
    ((tokenise_spans_cover (fun c => c == '.') (fun c => c == ' ')
      ['a', 'b', ' ', 'c']).2.2.1 ⟨['a', 'b'], 0, 2, Tokeniser.word⟩ (by decide)).2.2⟩

/-! ## Extraction offsets (C8) -/

/-- In a well-formed span list, an earlier-or-equal token's begin is at most
a later token's end. -/
theorem spansFrom_b_le_e {ts : List Token} {offset : Nat} (h : spansFrom offset ts)
    {i j : Nat} (hij : i ≤ j) (hj : j < ts.length) :
    (ts.getD i ⟨[], 0, 0, ""⟩).begin_ ≤ (ts.getD j ⟨[], 0, 0, ""⟩).end_ := by
  rcases Nat.eq_or_lt_of_le hij with rfl | hlt
  · exact spansFrom_self_le ts offset h i hj
  · exact le_trans (spansFrom_self_le ts offset h i (by omega))
      (le_trans (spansFrom_sep ts offset h i j hlt hj)
        (spansFrom_self_le ts offset h j hj))

/-- Span-preserving transforms preserve the `spansFrom` invariant. -/
theorem spansFrom_congr :
    ∀ (ts us : List Token) (offset : Nat),
      ts.map (fun t => (t.begin_, t.end_)) = us.map (fun t => (t.begin_, t.end_)) →
      spansFrom offset ts → spansFrom offset us := by
  intro ts
  induction ts with
  | nil =>
    intro us offset hmap _
    cases us with
    | nil => trivial
    | cons u us2 => simp at hmap
  | cons t rest ih =>
    intro us offset hmap h
    cases us with
    | nil => simp at hmap
    | cons u us2 =>
      simp only [List.map_cons, List.cons.injEq, Prod.mk.injEq] at hmap
      obtain ⟨⟨hb, he⟩, hrest⟩ := hmap
      obtain ⟨h1, h2, h3⟩ := h
      exact ⟨by rw [← hb, h1], by rw [← hb, ← he]; exact h2, by rw [← he]; exact ih us2 _ hrest h3⟩

/-- Span-preserving transforms preserve the end offset. -/
theorem endOff_congr :
    ∀ (ts us : List Token) (offset : Nat),
      ts.map (fun t => (t.begin_, t.end_)) = us.map (fun t => (t.begin_, t.end_)) →
      endOff offset ts = endOff offset us := by
  intro ts
  induction ts with
  | nil =>
    intro us offset hmap
    cases us with
    | nil => rfl
    | cons u us2 => simp at hmap
  | cons t rest ih =>
    intro us offset hmap
    cases us with
    | nil => simp at hmap
    | cons u us2 =>
      simp only [List.map_cons, List.cons.injEq, Prod.mk.injEq] at hmap
      obtain ⟨⟨_, he⟩, hrest⟩ := hmap
      simp only [endOff]
      rw [← he]
      exact ih us2 t.end_ hrest

/-- The transform chain preserves the token span list when every transform
does. -/
theorem foldl_transform_spans :
    ∀ (transforms : List (List Token → List Token)) (ts : List Token),
      (∀ tr ∈ transforms, ∀ xs : List Token,
        (tr xs).map (fun t => (t.begin_, t.end_)) = xs.map (fun t => (t.begin_, t.end_))) →
      (transforms.foldl (fun tokens tr => tr tokens) ts).map (fun t => (t.begin_, t.end_)) =
        ts.map (fun t => (t.begin_, t.end_)) := by
  intro transforms
  induction transforms with
  | nil => intro ts _; rfl
  | cons tr rest ih =>
    intro ts h
    simp only [List.foldl_cons]
    rw [ih (tr ts) (fun x hx xs => h x (List.mem_cons_of_mem _ hx) xs)]
    exact h tr (List.mem_cons_self tr rest) ts

/-- `Matcher.tokenise` (tokenise plus span-preserving transforms) produces
well-formed spans starting at 0 and ending at the sentence's length. -/
theorem matcher_tokenise_spans (P W : Char → Bool)
    (transforms : List (List Token → List Token)) (s : List Char)
    (htr : ∀ tr ∈ transforms, ∀ xs : List Token,
      (tr xs).map (fun t => (t.begin_, t.end_)) = xs.map (fun t => (t.begin_, t.end_))) :
    spansFrom 0 (Matcher.tokenise P W transforms s) ∧
    endOff 0 (Matcher.tokenise P W transforms s) = s.length := by
  obtain ⟨hc, hf⟩ := tokenise_covers P W s
  have hbase : spansFrom 0 (Tokeniser.tokenise P W s) := coversFrom_spansFrom _ 0 hc
  have hend : endOff 0 (Tokeniser.tokenise P W s) = s.length := by
    rw [coversFrom_endOff _ 0 hc, hf]; omega
  have hmap := foldl_transform_spans transforms (Tokeniser.tokenise P W s) htr
  constructor
  · exact spansFrom_congr _ _ 0 hmap.symm hbase
  · rw [← hend]
    exact endOff_congr _ _ 0 hmap

/-- Character spans of the matches of one sentence stay inside the
sentence. -/
theorem matchSentence_bounds (tokens : List Token) (stream : List SMMatch)
    (hsp : spansFrom 0 tokens)
    (hwf : ∀ m ∈ stream, m.begin_ < m.end_ ∧ m.end_ ≤ tokens.length) :
    ∀ mm ∈ Matcher.matchSentence tokens stream,
      mm.begin_ ≤ mm.end_ ∧ mm.end_ ≤ endOff 0 tokens := by
  intro mm hmm
  unfold Matcher.matchSentence at hmm
  rw [List.mem_map] at hmm
  obtain ⟨c, hc, rfl⟩ := hmm
  obtain ⟨h1, h2⟩ := hwf c (mem_resolve hc)
  simp only [Matcher.make_match]
  constructor
  · exact spansFrom_b_le_e hsp (by omega) (by omega)
  · exact spansFrom_end_le tokens 0 hsp (c.end_ - 1) (by omega)

/-- Composition of Python slices. -/
theorem pySlice_pySlice (text : List Char) (b e mb me : Nat)
    (hbe : b ≤ e) (hme : me ≤ e - b) :
    pySlice (pySlice text b e) mb me = pySlice text (b + mb) (b + me) := by
  unfold pySlice
  calc ((((text.take e).drop b).take me).drop mb)
      = ((((text.take e).take (b + me)).drop b).drop mb) := by rw [List.take_drop]
    _ = (((text.take (b + me)).drop b).drop mb) := by
        rw [List.take_take, Nat.min_eq_left (by omega)]
    _ = ((text.take (b + me)).drop (b + mb)) := by rw [List.drop_drop]

/-- Every match emitted for one sentence satisfies `token = text[begin:end]`
in the original document, given that the sentence is the document slice at
the running offset. -/
theorem extractTerms_token_slice (text sentence_str : List Char)
    (tokens : List Token) (offset e2 sIdx : Nat)
    (engine : Nat → Nat → List SMMatch)
    (hsp : spansFrom 0 tokens)
    (hlen : endOff 0 tokens = sentence_str.length)
    (hss : sentence_str = pySlice text offset e2)
    (hoe : offset ≤ e2)
    (heng : ∀ j, ∀ m ∈ engine sIdx j, m.begin_ < m.end_ ∧ m.end_ ≤ tokens.length) :
    ∀ (terms : List (List Char)) (tIdx : Nat),
      ∀ em ∈ Extractor.extractTerms tokens sentence_str offset sIdx engine tIdx terms,
        em.token = pySlice text em.begin_ em.end_ := by
  intro terms
  induction terms with
  | nil =>
    intro tIdx em hem
    simp [Extractor.extractTerms] at hem
  | cons term rest ih =>
    intro tIdx em hem
    simp only [Extractor.extractTerms, List.mem_append] at hem
    rcases hem with hem | hem
    · rw [List.mem_map] at hem
      obtain ⟨m, hm, rfl⟩ := hem
      obtain ⟨hb, he⟩ := matchSentence_bounds tokens (engine sIdx tIdx) hsp (heng tIdx) m hm
      rw [hlen] at he
      have hsl : sentence_str.length ≤ e2 - offset := by
        rw [hss]
        unfold pySlice
        rw [List.length_drop, List.length_take]
        omega
      show pySlice sentence_str m.begin_ m.end_ =
        pySlice text (m.begin_ + offset) (m.end_ + offset)
      rw [hss, pySlice_pySlice text offset e2 m.begin_ m.end_ hoe (by omega)]
      rw [Nat.add_comm offset m.begin_, Nat.add_comm offset m.end_]
    · exact ih (tIdx + 1) em hem

/-- Invariant of the sentence loop of `Extractor.extract`: every emitted
match's token is the document slice at its document-absolute offsets. -/
theorem extractGo_token_slice (P W : Char → Bool)
    (transforms : List (List Token → List Token)) (terms : List (List Char))
    (engine : Nat → Nat → List SMMatch) (text : List Char)
    (htr : ∀ tr ∈ transforms, ∀ xs : List Token,
      (tr xs).map (fun t => (t.begin_, t.end_)) = xs.map (fun t => (t.begin_, t.end_))) :
    ∀ (ss : List (List Char)) (b : Nat) (ys : List (List Char)) (sIdx : Nat),
      Tokeniser.sentencesFrom text b ss = some ys →
      b ≤ text.length →
      (∀ k j, ∀ m ∈ engine (sIdx + k) j, m.begin_ < m.end_ ∧
        m.end_ ≤ (Matcher.tokenise P W transforms (ys.getD k [])).length) →
      ∀ em ∈ Extractor.extractGo P W transforms terms engine sIdx b ys,
        em.token = pySlice text em.begin_ em.end_ := by
  intro ss
  induction ss with
  | nil =>
    intro b ys sIdx hys _ _ em hem
    simp only [Tokeniser.sentencesFrom, Option.some_inj] at hys
    subst hys
    simp [Extractor.extractGo] at hem
  | cons s rest ih =>
    intro b ys sIdx hys hb heng em hem
    cases hidx : Tokeniser.indexFrom text s b with
    | none =>
      simp only [Tokeniser.sentencesFrom, hidx] at hys
      exact Option.noConfusion hys
    | some i =>
      simp only [Tokeniser.sentencesFrom, hidx] at hys
      obtain ⟨hbi, hfit⟩ := indexFrom_bounds hidx
      cases hrest : Tokeniser.sentencesFrom text (i + s.length) rest with
      | none =>
        rw [hrest] at hys
        exact Option.noConfusion hys
      | some ys2 =>
        rw [hrest] at hys
        simp only [Option.some_inj] at hys
        subst hys
        have hslice_len : (pySlice text b (i + s.length)).length = i + s.length - b :=
          pySlice_length text b (i + s.length) (by omega) (by omega)
        simp only [Extractor.extractGo, List.mem_append] at hem
        rcases hem with hem | hem
        · obtain ⟨hsp, hlen⟩ :=
            matcher_tokenise_spans P W transforms (pySlice text b (i + s.length)) htr
          exact extractTerms_token_slice text (pySlice text b (i + s.length)) _
            b (i + s.length) sIdx engine hsp hlen rfl (by omega)
            (fun j m hm => heng 0 j m hm) terms 0 em hem
        · refine ih (b + (pySlice text b (i + s.length)).length) ys2 (sIdx + 1) ?_ ?_ ?_ em hem
          · rw [hslice_len]
            have heq : b + (i + s.length - b) = i + s.length := by omega
            rw [heq]
            exact hrest
          · rw [hslice_len]; omega
          · intro k j m hm
            have heq : sIdx + 1 + k = sIdx + (k + 1) := by omega
            rw [heq] at hm
            exact heng (k + 1) j m hm

/-- C8: every match yielded by `Extractor.extract` satisfies
`match.token = text[match.begin:match.end]`: the sentence-relative offsets
shifted by the running sentence offset address in the original document
exactly the substring stored in the match's token field.  Hypotheses: the
punkt collaborator output is locatable (`sentences` succeeds), the token
transforms rewrite only token text (the transform contract), and the
engine's candidate windows are well-formed over each sentence's token list
(the engine contract). -/
theorem extract_token_slice (P W : Char → Bool)
    (transforms : List (List Token → List Token)) (terms : List (List Char))
    (engine : Nat → Nat → List SMMatch) (punkt : List (List Char))
    (text : List Char) (sents : List (List Char)) (out : List EMatch)
    (hsents : Tokeniser.sentences text punkt = some sents)
    (hout : Extractor.extract P W transforms terms engine punkt text = some out)
    (htr : ∀ tr ∈ transforms, ∀ xs : List Token,
      (tr xs).map (fun t => (t.begin_, t.end_)) = xs.map (fun t => (t.begin_, t.end_)))
    (heng : ∀ i j, ∀ m ∈ engine i j, m.begin_ < m.end_ ∧
      m.end_ ≤ (Matcher.tokenise P W transforms (sents.getD i [])).length) :
    ∀ em ∈ out, em.token = pySlice text em.begin_ em.end_ := by
  have hgo : out = Extractor.extractGo P W transforms terms engine 0 0 sents := by
    unfold Extractor.extract at hout
    rw [hsents] at hout
    exact (Option.some_inj.mp hout).symm
  intro em hem
  rw [hgo] at hem
  refine extractGo_token_slice P W transforms terms engine text htr punkt 0 sents 0
    hsents (Nat.zero_le _) ?_ em hem
  intro k j m hm
  rw [Nat.zero_add] at hm
  exact heng k j m hm

/-- C8 witness: the offset theorem at the concrete document `"ab. c"` split
into two sentences, one term and an engine returning one candidate window in
the first sentence; the unique match's token is the document slice at its
absolute offsets. -/
theorem extract_token_slice_witness :
    (⟨['a', 'b'], 0, 2, (1 : ℚ), ['a', 'b']⟩ : EMatch).token =
      pySlice ['a', 'b', '.', ' ', 'c'] 0 2 :=
  extract_token_slice (fun c => c == '.') (fun c => c == ' ') [] [['a', 'b']]
    (fun i j => if i = 0 ∧ j = 0 then [⟨0, 1, 1⟩] else [])
    [['a', 'b', '.'], ['c']] ['a', 'b', '.', ' ', 'c']
    [['a', 'b', '.'], [' ', 'c']] [⟨['a', 'b'], 0, 2, 1, ['a', 'b']⟩]
    (by decide) (by decide) (by simp)
    (by
      intro i j m hm
      by_cases h : i = 0 ∧ j = 0
      · obtain ⟨hi, hj⟩ := h
        subst hi; subst hj
        simp at hm
        subst hm
        decide
      · simp [h] at hm)
    ⟨['a', 'b'], 0, 2, 1, ['a', 'b']⟩ (by decide)

/-! ## Serialisation round trip (C9) -/

namespace Ser

/-- Lookup at the head key. -/
theorem lookupKey_cons_self {k : String} {v : JValue} {rest : List (String × JValue)} :
    lookupKey k ((k, v) :: rest) = some v := by
  simp [lookupKey]

/-- Lookup skips a different head key. -/
theorem lookupKey_cons_ne {k k2 : String} {v : JValue} {rest : List (String × JValue)}
    (h : k2 ≠ k) : lookupKey k ((k2, v) :: rest) = lookupKey k rest := by
  simp [lookupKey, h]

/-- Lookup of an absent key fails. -/
theorem lookupKey_eq_none {k : String} :
    ∀ {entries : List (String × JValue)}, k ∉ entries.map Prod.fst →
      lookupKey k entries = none := by
  intro entries
  induction entries with
  | nil => intro _; rfl
  | cons kv rest ih =>
    intro h
    simp only [List.map_cons, List.mem_cons] at h
    push_neg at h
    simp only [lookupKey]
    rw [if_neg (fun he : kv.1 = k => h.1 he.symm)]
    exact ih h.2

/-- The serialised field entries of a record carry only declared field
names. -/
theorem encFields_keys (fields : List (String × Option JPrim)) :
    ∀ key ∈ (fields.filterMap (fun f => match f.2 with
      | none => none
      | some p => some (f.1, JValue.prim p))).map Prod.fst,
      key ∈ fields.map Prod.fst := by
  induction fields with
  | nil => intro key h; simp at h
  | cons f rest ih =>
    intro key h
    cases hv : f.2 with
    | none =>
      rw [List.filterMap_cons] at h
      simp only [hv] at h
      exact List.mem_cons_of_mem _ (ih key h)
    | some p =>
      rw [List.filterMap_cons] at h
      simp only [hv, List.map_cons, List.mem_cons] at h
      rcases h with h | h
      · exact List.mem_cons.mpr (Or.inl h)
      · exact List.mem_cons_of_mem _ (ih key h)

/-- Reconstructing the declared fields from a context that agrees with the
record's serialised field entries restores the record's fields, absent
(`None`-valued, unserialised) fields included. -/
theorem decodeFields_encode :
    ∀ (fields : List (String × Option JPrim)) (ctx : List (String × JValue)),
      (fields.map Prod.fst).Nodup →
      (∀ n ∈ fields.map Prod.fst, lookupKey n ctx =
        lookupKey n (fields.filterMap (fun f => match f.2 with
          | none => none
          | some p => some (f.1, JValue.prim p)))) →
      decodeFields ctx (fields.map Prod.fst) = some fields := by
  intro fields
  induction fields with
  | nil => intro ctx _ _; rfl
  | cons f rest ih =>
    intro ctx hnd hctx
    obtain ⟨n, v⟩ := f
    simp only [List.map_cons, List.nodup_cons] at hnd
    obtain ⟨hn, hnd2⟩ := hnd
    have hhead := hctx n (by simp)
    rw [List.filterMap_cons] at hhead
    have hfv : decodeFieldValue ctx n = some (n, v) := by
      cases v with
      | none =>
        simp only at hhead
        rw [decodeFieldValue, hhead, lookupKey_eq_none
          (fun hmem => hn (encFields_keys rest n hmem))]
      | some p =>
        simp only at hhead
        rw [decodeFieldValue, hhead, lookupKey_cons_self]
    have hrest : decodeFields ctx (rest.map Prod.fst) = some rest := by
      refine ih ctx hnd2 ?_
      intro m hm
      have := hctx m (List.mem_cons_of_mem _ hm)
      rw [List.filterMap_cons] at this
      cases hv : v with
      | none => rw [this, hv]
      | some p =>
        rw [this, hv]
        refine lookupKey_cons_ne fun he => hn ?_
        have hnm : n = m := he
        rw [hnm]
        exact hm
    rw [List.map_cons, decodeFields, hfv, hrest]

/-- Constructing a record class from its own serialised keyword arguments
restores the record. -/
theorem constructRecord_encode (className : String) (thr : Option ℚ)
    (fields : List (String × Option JPrim)) (ctx : List (String × JValue))
    (hctx : ctx = (match thr with
      | none => []
      | some q => [("_matching_threshold", JValue.prim (.num q))]) ++
     fields.filterMap (fun f => match f.2 with
      | none => none
      | some p => some (f.1, JValue.prim p)))
    (hnd : (fields.map Prod.fst).Nodup)
    (hth : "_matching_threshold" ∉ fields.map Prod.fst) :
    constructRecord (fields.map Prod.fst) className ctx = some ⟨className, thr, fields⟩ := by
  have hguard : ∀ kv ∈ ctx, kv.1 = "_matching_threshold" ∨ kv.1 ∈ fields.map Prod.fst := by
    rw [hctx]
    intro kv hkv
    rw [List.mem_append] at hkv
    rcases hkv with hkv | hkv
    · cases thr with
      | none => simp at hkv
      | some q =>
        simp only [List.mem_singleton] at hkv
        rw [hkv]
        exact Or.inl rfl
    · exact Or.inr (encFields_keys fields kv.1 (List.mem_map_of_mem Prod.fst hkv))
  have hthr : decodeThreshold (lookupKey "_matching_threshold" ctx) = some thr := by
    rw [hctx]
    cases thr with
    | none =>
      rw [List.nil_append, lookupKey_eq_none
        (fun hmem => hth (encFields_keys fields _ hmem))]
      rfl
    | some q =>
      rw [List.singleton_append, lookupKey_cons_self]
      rfl
  have hfl : decodeFields ctx (fields.map Prod.fst) = some fields := by
    refine decodeFields_encode fields _ hnd ?_
    intro n hn
    rw [hctx]
    cases thr with
    | none => rw [List.nil_append]
    | some q =>
      rw [List.singleton_append]
      refine lookupKey_cons_ne fun he => hth ?_
      have : "_matching_threshold" = n := he
      rw [this]
      exact hn
  unfold constructRecord
  rw [if_pos hguard, hthr, hfl]

/-- Reconstructing a serialised record object restores the record. -/
theorem reconstruct_encodeRecord (reg : Registry) (r : DRecord) (h : recOK reg r) :
    reconstruct reg (encodeRecord r) = some (PyVal.record r) := by
  obtain ⟨hreg, hnd, hth, hcl, hcn⟩ := h
  have hfiltr : ((("_class", JValue.prim (.str r.className)) ::
      ((match r._matching_threshold with
        | none => []
        | some q => [("_matching_threshold", JValue.prim (.num q))]) ++
       r.fields.filterMap (fun f => match f.2 with
        | none => none
        | some p => some (f.1, JValue.prim p)))).filter (fun kv => kv.1 ≠ "_class")) =
      ((match r._matching_threshold with
        | none => []
        | some q => [("_matching_threshold", JValue.prim (.num q))]) ++
       r.fields.filterMap (fun f => match f.2 with
        | none => none
        | some p => some (f.1, JValue.prim p))) := by
    rw [List.filter_cons]
    have hfalse : (decide (("_class", JValue.prim (.str r.className)).1 ≠ "_class")) = false := by
      simp
    rw [hfalse]
    simp only [Bool.false_eq_true, if_false]
    rw [List.filter_eq_self]
    intro kv hkv
    rw [List.mem_append] at hkv
    rcases hkv with hkv | hkv
    · cases hmt : r._matching_threshold with
      | none => rw [hmt] at hkv; simp at hkv
      | some q =>
        rw [hmt] at hkv
        simp only [List.mem_singleton] at hkv
        rw [hkv]
        simp
    · have hkey := encFields_keys r.fields kv.1 (List.mem_map_of_mem Prod.fst hkv)
      simp only [ne_eq, decide_eq_true_eq]
      exact fun he => hcl (he ▸ hkey)
  unfold encodeRecord reconstruct
  simp only [lookupKey_cons_self]
  rw [if_neg hcn]
  simp only [hreg]
  rw [hfiltr,
    constructRecord_encode r.className r._matching_threshold r.fields _ rfl hnd hth]
  rfl

/-- Reconstructing the mandatory constructor parameters of a transform class
from its own serialised attributes restores the attributes. -/
theorem decodeTrFields_encode :
    ∀ (fields : List (String × JPrim)) (ctx : List (String × JValue)),
      (fields.map Prod.fst).Nodup →
      (∀ n ∈ fields.map Prod.fst, lookupKey n ctx =
        lookupKey n (fields.map (fun f => (f.1, JValue.prim f.2)))) →
      decodeTrFields ctx (fields.map Prod.fst) = some fields := by
  intro fields
  induction fields with
  | nil => intro ctx _ _; rfl
  | cons f rest ih =>
    intro ctx hnd hctx
    obtain ⟨n, v⟩ := f
    simp only [List.map_cons, List.nodup_cons] at hnd
    obtain ⟨hn, hnd2⟩ := hnd
    have hhead := hctx n (by simp)
    rw [List.map_cons] at hhead
    have hfv : decodeTrField ctx n = some (n, v) := by
      rw [decodeTrField, hhead, lookupKey_cons_self]
    have hrest : decodeTrFields ctx (rest.map Prod.fst) = some rest := by
      refine ih ctx hnd2 ?_
      intro m hm
      have := hctx m (List.mem_cons_of_mem _ hm)
      rw [List.map_cons] at this
      rw [this]
      refine lookupKey_cons_ne fun he => hn ?_
      have hnm : n = m := he
      rw [hnm]
      exact hm
    rw [List.map_cons, decodeTrFields, hfv, hrest]

/-- Constructing a transform class from its own serialised attributes
restores the transform object. -/
theorem constructTransform_encode (className : String)
    (fields : List (String × JPrim)) (ctx : List (String × JValue))
    (hctx : ctx = fields.map (fun f => (f.1, JValue.prim f.2)))
    (hnd : (fields.map Prod.fst).Nodup) :
    constructTransform (fields.map Prod.fst) className ctx = some ⟨className, fields⟩ := by
  have hguard : ∀ kv ∈ ctx, kv.1 ∈ fields.map Prod.fst := by
    rw [hctx]
    intro kv hkv
    rw [List.mem_map] at hkv
    obtain ⟨f, hf, rfl⟩ := hkv
    exact List.mem_map_of_mem Prod.fst hf
  have hdf : decodeTrFields ctx (fields.map Prod.fst) = some fields := by
    refine decodeTrFields_encode fields ctx hnd ?_
    intro n _
    rw [hctx]
  unfold constructTransform
  rw [if_pos hguard, hdf]

/-- Reconstructing a serialised transform object restores it. -/
theorem reconstruct_encodeTrObj (reg : Registry) (t : TrObj) (h : trOK reg t) :
    reconstruct reg (encodeTrObj t) = some (PyVal.transform t) := by
  obtain ⟨hrec, hreg, hnd, hcl, hcn⟩ := h
  have hfiltr : ((("_class", JValue.prim (.str t.className)) ::
      t.fields.map (fun f => (f.1, JValue.prim f.2))).filter
        (fun kv => kv.1 ≠ "_class")) =
      t.fields.map (fun f => (f.1, JValue.prim f.2)) := by
    rw [List.filter_cons]
    have hfalse : (decide (("_class", JValue.prim (.str t.className)).1 ≠ "_class")) = false := by
      simp
    rw [hfalse]
    simp only [Bool.false_eq_true, if_false]
    rw [List.filter_eq_self]
    intro kv hkv
    rw [List.mem_map] at hkv
    obtain ⟨f, hf, rfl⟩ := hkv
    simp only [ne_eq, decide_eq_true_eq]
    exact fun he => hcl (he ▸ List.mem_map_of_mem Prod.fst hf)
  unfold encodeTrObj reconstruct
  simp only [lookupKey_cons_self]
  rw [if_neg hcn]
  simp only [hrec, hreg]
  rw [hfiltr,
    constructTransform_encode t.className t.fields _ rfl hnd]
  rfl

/-- Reconstructing a serialised transform list restores it (as Python
objects). -/
theorem reconstructList_transforms (reg : Registry) :
    ∀ ts : List TrObj, (∀ t ∈ ts, trOK reg t) →
      reconstructList reg (ts.map encodeTrObj) = some (ts.map PyVal.transform) := by
  intro ts
  induction ts with
  | nil => intro _; rfl
  | cons t rest ih =>
    intro h
    rw [List.map_cons, reconstructList,
      reconstruct_encodeTrObj reg t (h t (List.mem_cons_self t rest)),
      ih (fun x hx => h x (List.mem_cons_of_mem _ hx)), List.map_cons]

/-- Typing the reconstructed transform list back restores the objects. -/
theorem decodeTransformList_transforms :
    ∀ ts : List TrObj, decodeTransformList (ts.map PyVal.transform) = some ts := by
  intro ts
  induction ts with
  | nil => rfl
  | cons t rest ih => rw [List.map_cons, decodeTransformList, ih]

/-- Round trip of the matcher keyword arguments through `reconstruct` and
the keyword decoding. -/
theorem kwargs_roundtrip (reg : Registry) :
    ∀ kw : List (String × KVal), (∀ kv ∈ kw, kvalOK reg kv.2) →
      ∃ pys, reconstructEntries reg (kw.map (fun kv => (kv.1, encodeKVal kv.2))) = some pys ∧
        decodeKwargs pys = some kw := by
  intro kw
  induction kw with
  | nil => intro _; exact ⟨[], rfl, rfl⟩
  | cons kv rest ih =>
    intro h
    obtain ⟨pys, h1, h2⟩ := ih (fun x hx => h x (List.mem_cons_of_mem _ hx))
    obtain ⟨k, val⟩ := kv
    cases val with
    | prim p =>
      refine ⟨(k, PyVal.prim p) :: pys, ?_, ?_⟩
      · rw [List.map_cons, reconstructEntries, h1]
        rfl
      · rw [decodeKwargs, h2]
        rfl
    | transforms ts =>
      have hts : ∀ t ∈ ts, trOK reg t := h (k, KVal.transforms ts) (List.mem_cons_self _ rest)
      refine ⟨(k, PyVal.list (ts.map PyVal.transform)) :: pys, ?_, ?_⟩
      · rw [List.map_cons, reconstructEntries]
        show (match reconstruct reg (encodeKVal (KVal.transforms ts)),
          reconstructEntries reg (rest.map (fun kv => (kv.1, encodeKVal kv.2))) with
          | some pv, some pvs => some ((k, pv) :: pvs)
          | _, _ => none) = _
        have : reconstruct reg (encodeKVal (KVal.transforms ts)) =
            some (PyVal.list (ts.map PyVal.transform)) := by
          show (reconstructList reg (ts.map encodeTrObj)).map PyVal.list = _
          rw [reconstructList_transforms reg ts hts]
          rfl
        rw [this, h1]
      · rw [decodeKwargs, h2]
        show (match decodeKwargEntry (k, PyVal.list (ts.map PyVal.transform)),
          some rest with
          | some x, some ks => some (x :: ks)
          | _, _ => none) = _
        have : decodeKwargEntry (k, PyVal.list (ts.map PyVal.transform)) =
            some (k, KVal.transforms ts) := by
          show (match decodeTransformList (ts.map PyVal.transform) with
            | none => none
            | some ts2 => some (k, KVal.transforms ts2)) = _
          rw [decodeTransformList_transforms ts]
        rw [this]

/-- Round trip of the dictionary items through `reconstruct` and the record
decoding. -/
theorem dict_roundtrip (reg : Registry) :
    ∀ d : List (String × DRecord), (∀ kv ∈ d, recOK reg kv.2) →
      ∃ pys, reconstructEntries reg (d.map (fun kv => (kv.1, encodeRecord kv.2))) = some pys ∧
        decodeDict pys = some d := by
  intro d
  induction d with
  | nil => intro _; exact ⟨[], rfl, rfl⟩
  | cons kv rest ih =>
    intro h
    obtain ⟨pys, h1, h2⟩ := ih (fun x hx => h x (List.mem_cons_of_mem _ hx))
    refine ⟨(kv.1, PyVal.record kv.2) :: pys, ?_, ?_⟩
    · rw [List.map_cons, reconstructEntries,
        reconstruct_encodeRecord reg kv.2 (h kv (List.mem_cons_self kv rest)), h1]
    · rw [decodeDict, h2]

/-- The keys of a per-entry value encoding are the original keys. -/
theorem keys_map_snd {α β : Type} (l : List (String × α)) (f : String × α → β) :
    (l.map (fun kv => (kv.1, f kv))).map Prod.fst = l.map Prod.fst := by
  induction l with
  | nil => rfl
  | cons kv rest ih => simp only [List.map_cons, ih]

/-- Deserialising a configuration document whose three sections reconstruct
and decode cleanly rebuilds the extractor state. -/
theorem deserialise_config (reg : Registry) (dt : ℚ) (argsJ dictJ : JValue)
    (pysA : List (String × PyVal)) (kwargs : List (String × KVal))
    (pysD : List (String × PyVal)) (dictionary : List (String × DRecord))
    (hA : reconstruct reg argsJ = some (PyVal.dict pysA))
    (hA2 : decodeKwargs pysA = some kwargs)
    (hD : reconstruct reg dictJ = some (PyVal.dict pysD))
    (hD2 : decodeDict pysD = some dictionary) :
    deserialise reg (.obj [("default_threshold", .prim (.num dt)),
      ("matcher_arguments", argsJ), ("dictionary", dictJ)]) =
      some ⟨dt, kwargs, dictionary⟩ := by
  have hL1 : lookupKey "default_threshold"
      [("default_threshold", JValue.prim (.num dt)),
       ("matcher_arguments", argsJ), ("dictionary", dictJ)] =
      some (JValue.prim (.num dt)) := lookupKey_cons_self
  have hL2 : lookupKey "matcher_arguments"
      [("default_threshold", JValue.prim (.num dt)),
       ("matcher_arguments", argsJ), ("dictionary", dictJ)] = some argsJ := by
    rw [lookupKey_cons_ne (by decide), lookupKey_cons_self]
  have hL3 : lookupKey "dictionary"
      [("default_threshold", JValue.prim (.num dt)),
       ("matcher_arguments", argsJ), ("dictionary", dictJ)] = some dictJ := by
    rw [lookupKey_cons_ne (by decide), lookupKey_cons_ne (by decide), lookupKey_cons_self]
  unfold deserialise
  simp only [hL1, hL2, hL3, Option.some_bind, hA, hA2, hD, hD2]

/-- C9: JSON round trip.  For every extractor state whose dictionary records
and token transforms are JSON-serialisable with resolvable, well-formed type
tags (`recOK`/`trOK`/`kvalOK`), and whose dictionary terms and matcher
argument names do not collide with the reserved `_class` key,
`Extractor.deserialise (Extractor.serialise e)` reproduces the same default
threshold, the same matcher construction arguments (transform objects
rebuilt from their embedded type tags with the same field values), and the
same dictionary contents, custom record field values included. -/
theorem serialise_roundtrip (reg : Registry) (e : SerExtractor)
    (hterms : "_class" ∉ e.dictionary.map Prod.fst)
    (hargs : "_class" ∉ e.matcher_kwargs.map Prod.fst)
    (hrecs : ∀ kv ∈ e.dictionary, recOK reg kv.2)
    (htrs : ∀ kv ∈ e.matcher_kwargs, kvalOK reg kv.2) :
    deserialise reg (serialise e) = some e := by
  obtain ⟨pysA, hA1, hA2⟩ := kwargs_roundtrip reg e.matcher_kwargs htrs
  obtain ⟨pysD, hD1, hD2⟩ := dict_roundtrip reg e.dictionary hrecs
  have hA : reconstruct reg (.obj (e.matcher_kwargs.map
      (fun kv => (kv.1, encodeKVal kv.2)))) = some (PyVal.dict pysA) := by
    unfold reconstruct
    rw [lookupKey_eq_none (by rw [keys_map_snd]; exact hargs), hA1]
    rfl
  have hD : reconstruct reg (.obj (e.dictionary.map
      (fun kv => (kv.1, encodeRecord kv.2)))) = some (PyVal.dict pysD) := by
    unfold reconstruct
    rw [lookupKey_eq_none (by rw [keys_map_snd]; exact hterms), hD1]
    rfl
  unfold serialise
  rw [deserialise_config reg e.default_threshold _ _ pysA e.matcher_kwargs
    pysD e.dictionary hA hA2 hD hD2]

/-- C9 witness: the round trip at a concrete extractor with one primitive
matcher argument, one `Lowercase`-like transform, and one dictionary record
with a custom field and a per-term threshold, under a registry resolving the
two type tags. -/
theorem serialise_roundtrip_witness :
    deserialise
      ⟨fun cn => if cn = "test::Person" then some ["birth"] else none,
       fun cn => if cn = "approxism.transforms.lowercase::Lowercase" then
         some ["min_len", "except_caps"] else none⟩
      (serialise
        ⟨1,
         [("language", KVal.prim (.str "english")),
          ("token_transform", KVal.transforms
            [⟨"approxism.transforms.lowercase::Lowercase",
              [("min_len", .num 4), ("except_caps", .bool false)]⟩])],
         [("Naylor, Doug",
           ⟨"test::Person", some (Rat.mk' 1 2 (by decide) (by decide)),
            [("birth", some (.str "31 December 1955"))]⟩)]⟩) =
      some
        ⟨1,
         [("language", KVal.prim (.str "english")),
          ("token_transform", KVal.transforms
            [⟨"approxism.transforms.lowercase::Lowercase",
              [("min_len", .num 4), ("except_caps", .bool false)]⟩])],
         [("Naylor, Doug",
           ⟨"test::Person", some (Rat.mk' 1 2 (by decide) (by decide)),
            [("birth", some (.str "31 December 1955"))]⟩)]⟩ :=
  serialise_roundtrip _ _ (by decide) (by decide)
    (by
      intro kv hkv
      simp only [List.mem_singleton] at hkv
      subst hkv
      refine ⟨by decide, by decide, by decide, by decide, by decide⟩)
    (by
      intro kv hkv
      simp only [List.mem_cons, List.not_mem_nil, or_false] at hkv
      rcases hkv with rfl | rfl
      · trivial
      · intro t ht
        simp only [List.mem_singleton] at ht
        subst ht
        refine ⟨by decide, by decide, by decide, by decide, by decide⟩)

end Ser

end Approxism
